import Mathlib

/-!
Verification development for the RFTP implementation (package `rftp`).

The Go sources are shallowly embedded: bytes are `Nat` values below 256 in
`List Nat`, machine integers are `Nat` with explicit reduction modulo `2^w`
where the code can overflow, fallible functions return `Option` (encoders,
where `nil, err` is modelled as `none`) or `DecodeOut` (decoders, where a
returned error and a runtime out-of-range access are distinguished).
-/

/-! ### Byte-level helpers (encoding/binary, big endian) -/

/-- Big-endian byte encoding of `x` on `k` bytes, most significant byte first,
as produced by `binary.Write(buf, binary.BigEndian, x)` on a `k`-byte integer
type (the value is implicitly reduced modulo `2^(8*k)`). -/
def beBytes : Nat → Nat → List Nat
  | 0, _ => []
  | k+1, x => beBytes k (x / 256) ++ [x % 256]

/-- Big-endian read of a byte list, as done by `binary.BigEndian.Uint16/32/64`. -/
def readBE (bs : List Nat) : Nat := bs.foldl (fun a b => a * 256 + b) 0

/-- Two big-endian bytes of a `uint16` value. -/
def u16be (x : Nat) : List Nat := beBytes 2 x

/-- Four big-endian bytes of a `uint32` value. -/
def u32be (x : Nat) : List Nat := beBytes 4 x

/-- Eight big-endian bytes of a `uint64` value. -/
def u64be (x : Nat) : List Nat := beBytes 8 x

/-- Outcome of an `UnmarshalBinary` call: `ok` with the decoded value, `err`
when the Go method returns a non-nil error, `oob` when the Go method performs
an out-of-range index or slice access (a runtime panic, not an error return). -/
inductive DecodeOut (α : Type) where
  | ok (a : α)
  | err
  | oob
deriving DecidableEq

/-- Functorial map on `DecodeOut`. -/
def DecodeOut.map {α β : Type} (f : α → β) : DecodeOut α → DecodeOut β
  | .ok a => .ok (f a)
  | .err => .err
  | .oob => .oob

/-! ### Codec (structs.go): message structures and Marshal/Unmarshal -/

/-- Option attached to a message header: `otype`, a value, and the serialized
length recorded by `UnmarshalBinary`. -/
structure option where
  otype : Nat
  value : List Nat
  length : Nat
deriving DecidableEq

/-- Decoder for a single header option; checks its own lengths and returns
errors (never panics). -/
def option.UnmarshalBinary (data : List Nat) : DecodeOut option :=
  if data.length < 2 then .err
  else
    let valueLen := data.getD 1 0
    let len := 2 + valueLen
    if data.length < len then .err
    else .ok ⟨data.getD 0 0, (data.drop 2).take valueLen, len⟩

/-- Encoder for a single header option. -/
def option.MarshalBinary (o : option) : Option (List Nat) :=
  some ([o.otype % 256, o.value.length % 256] ++ o.value)

/-- Message header: 4-bit version and message type packed into one byte, an
ack number, an option count, and the parsed options with the consumed length. -/
structure msgHeader where
  version : Nat
  msgType : Nat
  ackNum : Nat
  optionLen : Nat
  options : List option
  hdrLen : Nat
deriving DecidableEq

/-- Concatenation of the marshalled options, as written by
`msgHeader.MarshalBinary`'s loop. -/
def marshalOptions : List option → Option (List Nat)
  | [] => some []
  | o :: os =>
    match o.MarshalBinary with
    | none => none
    | some ob =>
      match marshalOptions os with
      | none => none
      | some rest => some (ob ++ rest)

/-- Header encoder: writes `version<<4 ^ msgType`, the ack number, the option
count, then the options. -/
def msgHeader.MarshalBinary (s : msgHeader) : Option (List Nat) :=
  let vt := Nat.xor ((s.version <<< 4) % 256) (s.msgType % 256)
  match marshalOptions s.options with
  | none => none
  | some ob => some ([vt, s.ackNum % 256, s.optionLen % 256] ++ ob)

/-- Parses `n` options from the byte stream, returning them together with the
number of bytes consumed. -/
def parseOptions : Nat → List Nat → DecodeOut (List option × Nat)
  | 0, _ => .ok ([], 0)
  | n+1, lens =>
    match option.UnmarshalBinary lens with
    | .ok o =>
      match parseOptions n (lens.drop o.length) with
      | .ok (os, consumed) => .ok (o :: os, o.length + consumed)
      | .err => .err
      | .oob => .oob
    | .err => .err
    | .oob => .oob

/-- Header decoder. The source checks `len(data) < 2` and returns an error,
but then unconditionally reads `data[2]`, so a 2-byte input is an
out-of-range access, not an error return. -/
def msgHeader.UnmarshalBinary (data : List Nat) : DecodeOut msgHeader :=
  if data.length < 2 then .err
  else
    let vt := data.getD 0 0
    let version := (vt &&& 0xF0) >>> 4
    let msgType := vt &&& 0x0F
    let ackNum := data.getD 1 0
    if data.length < 3 then .oob
    else
      let optionLen := data.getD 2 0
      match parseOptions optionLen (data.drop 3) with
      | .ok (os, consumed) => .ok ⟨version, msgType, ackNum, optionLen, os, 3 + consumed⟩
      | .err => .err
      | .oob => .oob

/-- File descriptor of a client request: resume offset and file name bytes. -/
structure fileDescriptor where
  offset : Nat
  fileName : List Nat
deriving DecidableEq

/-- Request for a batch of files. -/
structure clientRequest where
  maxTransmissionRate : Nat
  files : List fileDescriptor
deriving DecidableEq

/-- Largest encodable offset: `uint64(math.Pow(2, 56)) - 1`. -/
def maxFileOffset : Nat := 2 ^ 56 - 1

/-- Big-endian encoding of an offset with the most significant byte cut off;
`binary.Write` into a `bytes.Buffer` cannot fail, so the error is always nil. -/
def sevenByteOffset (offset : Nat) : Option (List Nat) :=
  some ((u64be offset).drop 1)

/-- Reads a 7-byte offset by padding it with one zero byte and reading a
big-endian `uint64`. -/
def uintOffset (seven : List Nat) : Nat := readBE (0 :: seven)

/-- Per-file portion of `clientRequest.MarshalBinary`: rejects offsets above
`maxFileOffset`, then writes the 7-byte offset, the 16-bit name length and the
name bytes. -/
def marshalFiles : List fileDescriptor → Option (List Nat)
  | [] => some []
  | f :: fs =>
    if maxFileOffset < f.offset then none
    else
      match sevenByteOffset f.offset with
      | none => none
      | some sb =>
        match marshalFiles fs with
        | none => none
        | some rest => some (sb ++ u16be f.fileName.length ++ f.fileName ++ rest)

/-- Encoder for `clientRequest`: 32-bit rate, 16-bit file count, then the
per-file records. -/
def clientRequest.MarshalBinary (s : clientRequest) : Option (List Nat) :=
  match marshalFiles s.files with
  | none => none
  | some body => some (u32be s.maxTransmissionRate ++ u16be s.files.length ++ body)

/-- Per-file portion of `clientRequest.UnmarshalBinary`: reads `n` file
descriptors, performing the same unchecked slices as the source
(`dataLens[:7]`, `dataLens[7:9]`, `dataLens[9:9+pathLen]`). -/
def unmarshalFiles : Nat → List Nat → DecodeOut (List fileDescriptor)
  | 0, _ => .ok []
  | n+1, dataLens =>
    if dataLens.length < 7 then .oob
    else
      let off := uintOffset (dataLens.take 7)
      if dataLens.length < 9 then .oob
      else
        let pathLen := readBE ((dataLens.drop 7).take 2)
        if dataLens.length < 9 + pathLen then .oob
        else
          let name := (dataLens.drop 9).take pathLen
          match unmarshalFiles n (dataLens.drop (9 + pathLen)) with
          | .ok fs => .ok (⟨off, name⟩ :: fs)
          | .err => .err
          | .oob => .oob

/-- Decoder for `clientRequest`; reads `data[:4]` and `data[4:6]` without any
length check, so short inputs are out-of-range accesses. -/
def clientRequest.UnmarshalBinary (data : List Nat) : DecodeOut clientRequest :=
  if data.length < 4 then .oob
  else
    let rate := readBE (data.take 4)
    if data.length < 6 then .oob
    else
      let numFiles := readBE ((data.drop 4).take 2)
      if numFiles = 0 then .ok ⟨rate, []⟩
      else
        match unmarshalFiles numFiles (data.drop 6) with
        | .ok fs => .ok ⟨rate, fs⟩
        | .err => .err
        | .oob => .oob

/-- Server metadata message. `ackNum` is a struct field but is never written
to the wire: the encoder writes a reserved zero byte in its place. -/
structure serverMetaData where
  ackNum : Nat
  status : Nat
  fileIndex : Nat
  size : Nat
  checkSum : List Nat
deriving DecidableEq

/-- Encoder for `serverMetaData`: reserved byte, status, file index, size and
the 16 checksum bytes. -/
def serverMetaData.MarshalBinary (s : serverMetaData) : Option (List Nat) :=
  some ([0] ++ [s.status % 256] ++ u16be s.fileIndex ++ u64be s.size ++ s.checkSum)

/-- Decoder for `serverMetaData`; reads `data[1]`, `data[2:4]`, `data[4:12]`
and `data[12:28]` without any length check. -/
def serverMetaData.UnmarshalBinary (data : List Nat) : DecodeOut serverMetaData :=
  if data.length < 2 then .oob
  else
    let status := data.getD 1 0
    if data.length < 4 then .oob
    else
      let fileIndex := readBE ((data.drop 2).take 2)
      if data.length < 12 then .oob
      else
        let size := readBE ((data.drop 4).take 8)
        if data.length < 28 then .oob
        else .ok ⟨0, status, fileIndex, size, (data.drop 12).take 16⟩

/-- Payload message carrying one chunk of a file. -/
structure serverPayload where
  fileIndex : Nat
  ackNumber : Nat
  offset : Nat
  data : List Nat
deriving DecidableEq

/-- Encoder for `serverPayload`: file index, 7-byte offset, then the payload
bytes. No bound check is performed on the offset. -/
def serverPayload.MarshalBinary (s : serverPayload) : Option (List Nat) :=
  match sevenByteOffset s.offset with
  | none => none
  | some sb => some (u16be s.fileIndex ++ sb ++ s.data)

/-- Decoder for `serverPayload`; reads `data[0:2]` and `data[2:9]` without any
length check, and takes the rest as payload only when more than 9 bytes are
present. -/
def serverPayload.UnmarshalBinary (data : List Nat) : DecodeOut serverPayload :=
  if data.length < 2 then .oob
  else
    let fileIndex := readBE (data.take 2)
    if data.length < 9 then .oob
    else
      let off := uintOffset ((data.drop 2).take 7)
      if 9 < data.length then .ok ⟨fileIndex, 0, off, data.drop 9⟩
      else .ok ⟨fileIndex, 0, off, []⟩

/-- Resend request entry: 10 bytes on the wire. -/
structure resendEntry where
  fileIndex : Nat
  offset : Nat
  length : Nat
deriving DecidableEq

/-- Client acknowledgement message. `ackNumber` travels in the header, not in
the body; `Server.handleACK` restores it from the header on receipt. -/
structure clientAck where
  ackNumber : Nat
  fileIndex : Nat
  status : Nat
  maxTransmissionRate : Nat
  offset : Nat
  resendEntries : List resendEntry
deriving DecidableEq

/-- Entry portion of `clientAck.MarshalBinary`: 16-bit file index, 7-byte
offset and one length byte per entry, with no bound check on the offset. -/
def marshalEntries : List resendEntry → Option (List Nat)
  | [] => some []
  | re :: res =>
    match sevenByteOffset re.offset with
    | none => none
    | some sb =>
      match marshalEntries res with
      | none => none
      | some rest => some (u16be re.fileIndex ++ sb ++ [re.length % 256] ++ rest)

/-- Encoder for `clientAck`: file index, status, rate, 7-byte offset, then the
resend entries. No bound check is performed on any offset. -/
def clientAck.MarshalBinary (c : clientAck) : Option (List Nat) :=
  match sevenByteOffset c.offset with
  | none => none
  | some sb =>
    match marshalEntries c.resendEntries with
    | none => none
    | some entries =>
      some (u16be c.fileIndex ++ [c.status % 256] ++ u32be c.maxTransmissionRate ++ sb ++ entries)

/-- Resend-entry loop of `clientAck.UnmarshalBinary`. The source iterates
`for i := 0; i < len(reBytes)/10; i++` while reassigning `reBytes =
reBytes[10:]` inside the body, so the bound shrinks as `i` grows and only
about half of the trailing entries are decoded. The first argument is fuel
bounding the iteration count; `reBytes.length + 1` always suffices because
every iteration removes 10 bytes. -/
def unmarshalEntries : Nat → Nat → List Nat → List resendEntry
  | 0, _, _ => []
  | fuel+1, i, reBytes =>
    if i < reBytes.length / 10 then
      ⟨readBE (reBytes.take 2), uintOffset ((reBytes.drop 2).take 7), reBytes.getD 9 0⟩
        :: unmarshalEntries fuel (i+1) (reBytes.drop 10)
    else []

/-- Decoder for `clientAck`; reads the 14-byte fixed prefix without any length
check, then decodes trailing resend entries. -/
def clientAck.UnmarshalBinary (data : List Nat) : DecodeOut clientAck :=
  if data.length < 2 then .oob
  else
    let fileIndex := readBE (data.take 2)
    if data.length < 3 then .oob
    else
      let status := data.getD 2 0
      if data.length < 7 then .oob
      else
        let rate := readBE ((data.drop 3).take 4)
        if data.length < 14 then .oob
        else
          let off := uintOffset ((data.drop 7).take 7)
          if 14 < data.length then
            let reBytes := data.drop 14
            .ok ⟨0, fileIndex, status, rate, off, unmarshalEntries (reBytes.length + 1) 0 reBytes⟩
          else .ok ⟨0, fileIndex, status, rate, off, []⟩

/-- Connection close message. -/
structure closeConnection where
  reason : Nat
deriving DecidableEq

/-- Encoder for `closeConnection`: the 16-bit reason. -/
def closeConnection.MarshalBinary (c : closeConnection) : Option (List Nat) :=
  some (u16be c.reason)

/-- Decoder for `closeConnection`; reads `data[:2]` without a length check. -/
def closeConnection.UnmarshalBinary (data : List Nat) : DecodeOut closeConnection :=
  if data.length < 2 then .oob else .ok ⟨readBE (data.take 2)⟩

/-! ### Transport framing (connection.go `sendTo` and the receive path) -/

/-- Sum of the five message types handled by `sendTo`. -/
inductive Msg where
  | req (r : clientRequest)
  | meta (m : serverMetaData)
  | payload (p : serverPayload)
  | ack (a : clientAck)
  | close (c : closeConnection)
deriving DecidableEq

/-- Message-type byte chosen by `sendTo`'s type switch. -/
def msgTypeOf : Msg → Nat
  | .req _ => 0
  | .meta _ => 1
  | .payload _ => 2
  | .ack _ => 3
  | .close _ => 4

/-- Header ack number stamped by `sendTo`: taken from the message for acks and
payloads, left zero otherwise (also for metadata). -/
def headerAckNum : Msg → Nat
  | .ack a => a.ackNumber
  | .payload p => p.ackNumber
  | _ => 0

/-- Body encoder dispatch of `sendTo`. -/
def marshalBody : Msg → Option (List Nat)
  | .req r => r.MarshalBinary
  | .meta m => m.MarshalBinary
  | .payload p => p.MarshalBinary
  | .ack a => a.MarshalBinary
  | .close c => c.MarshalBinary

/-- Full `sendTo` encoding: header with version 1, the message type, the
piggybacked ack number and no options, followed by the message body. -/
def sendToBytes (msg : Msg) : Option (List Nat) :=
  let header : msgHeader := ⟨1, msgTypeOf msg, headerAckNum msg, 0, [], 0⟩
  match header.MarshalBinary with
  | none => none
  | some hs =>
    match marshalBody msg with
    | none => none
    | some bs => some (hs ++ bs)

/-- Modelled from the spec: the client-side payload receive handler
(client.go) is not among the sources; per the spec the 8-bit ackNum is
piggybacked on payload messages in the header, so on receipt it is restored
from the decoded header, symmetrical to what `Server.handleACK` does for acks. -/
def restorePayloadAck (h : msgHeader) (p : serverPayload) : serverPayload :=
  { p with ackNumber := h.ackNum }

/-- Receive path: `udpConnection.receive` decodes the header and hands
`msg[header.hdrLen:]` to the handler registered for the message type, which
unmarshals the body. `Server.handleACK` then sets the ack's `ackNumber` from
the header (`ack.ackNumber = p.ackNum`); `restorePayloadAck` plays the same
role for payloads. Unknown message types have no handler and are dropped. -/
def decodePacket (bytes : List Nat) : DecodeOut Msg :=
  match msgHeader.UnmarshalBinary bytes with
  | .err => .err
  | .oob => .oob
  | .ok h =>
    let body := bytes.drop h.hdrLen
    if h.msgType = 0 then DecodeOut.map .req (clientRequest.UnmarshalBinary body)
    else if h.msgType = 1 then DecodeOut.map .meta (serverMetaData.UnmarshalBinary body)
    else if h.msgType = 2 then
      DecodeOut.map (fun p => .payload (restorePayloadAck h p)) (serverPayload.UnmarshalBinary body)
    else if h.msgType = 3 then
      DecodeOut.map (fun a => .ack { a with ackNumber := h.ackNum }) (clientAck.UnmarshalBinary body)
    else if h.msgType = 4 then DecodeOut.map .close (closeConnection.UnmarshalBinary body)
    else .err

/-! ### Well-formedness of message values (machine-integer ranges) -/

/-- Field ranges of a file descriptor: a 56-bit offset, a name whose length
fits the 16-bit length field, and byte-valued name characters. -/
def fileDescriptor.WF (f : fileDescriptor) : Prop :=
  f.offset ≤ maxFileOffset ∧ f.fileName.length < 2 ^ 16 ∧ ∀ b ∈ f.fileName, b < 256

/-- Field ranges of a client request. -/
def clientRequest.WF (s : clientRequest) : Prop :=
  s.maxTransmissionRate < 2 ^ 32 ∧ s.files.length < 2 ^ 16 ∧ ∀ f ∈ s.files, f.WF

/-- Field ranges of a server metadata message. -/
def serverMetaData.WF (s : serverMetaData) : Prop :=
  s.ackNum < 2 ^ 8 ∧ s.status < 2 ^ 8 ∧ s.fileIndex < 2 ^ 16 ∧ s.size < 2 ^ 64 ∧
    s.checkSum.length = 16 ∧ ∀ b ∈ s.checkSum, b < 256

/-- Field ranges of a server payload message, with a 56-bit offset. -/
def serverPayload.WF (s : serverPayload) : Prop :=
  s.fileIndex < 2 ^ 16 ∧ s.ackNumber < 2 ^ 8 ∧ s.offset < 2 ^ 56 ∧ ∀ b ∈ s.data, b < 256

/-- Field ranges of a resend entry, with a 56-bit offset. -/
def resendEntry.WF (r : resendEntry) : Prop :=
  r.fileIndex < 2 ^ 16 ∧ r.offset < 2 ^ 56 ∧ r.length < 2 ^ 8

/-- Field ranges of a client ack, with 56-bit offsets. -/
def clientAck.WF (c : clientAck) : Prop :=
  c.ackNumber < 2 ^ 8 ∧ c.fileIndex < 2 ^ 16 ∧ c.status < 2 ^ 8 ∧
    c.maxTransmissionRate < 2 ^ 32 ∧ c.offset < 2 ^ 56 ∧ ∀ re ∈ c.resendEntries, re.WF

/-- Field range of a close message. -/
def closeConnection.WF (c : closeConnection) : Prop :=
  c.reason < 2 ^ 16

/-- Well-formedness of a message value: every field fits its machine type and
every offset is within the 56-bit range. -/
def Msg.WF : Msg → Prop
  | .req r => r.WF
  | .meta m => m.WF
  | .payload p => p.WF
  | .ack a => a.WF
  | .close c => c.WF

/-- Normalisation applied by a decode round trip: a metadata message comes
back with `ackNum = 0` (the field is not on the wire), and a client ack keeps
only the resend entries that survive the shrinking-bound decode loop. -/
def Msg.decoded : Msg → Msg
  | .meta m => .meta { m with ackNum := 0 }
  | .ack a => .ack { a with resendEntries := a.resendEntries.take ((a.resendEntries.length + 1) / 2) }
  | m => m

instance (f : fileDescriptor) : Decidable f.WF := by
  unfold fileDescriptor.WF; infer_instance

instance (s : clientRequest) : Decidable s.WF := by
  unfold clientRequest.WF; infer_instance

instance (s : serverMetaData) : Decidable s.WF := by
  unfold serverMetaData.WF; infer_instance

instance (s : serverPayload) : Decidable s.WF := by
  unfold serverPayload.WF; infer_instance

instance (r : resendEntry) : Decidable r.WF := by
  unfold resendEntry.WF; infer_instance

instance (c : clientAck) : Decidable c.WF := by
  unfold clientAck.WF; infer_instance

instance (c : closeConnection) : Decidable c.WF := by
  unfold closeConnection.WF; infer_instance

instance (m : Msg) : Decidable m.WF := by
  cases m <;> (unfold Msg.WF; infer_instance)

/-! ### Server-side message structures (server.go, queue.go) -/

/-- Payload structure used by the server session and the chunk queue. -/
structure ServerPayload where
  fileIndex : Nat
  ackNumber : Nat
  offset : Nat
  data : List Nat
deriving DecidableEq

/-- Metadata structure used by the server session. -/
structure ServerMetaData where
  status : Nat
  fileIndex : Nat
  size : Nat
  checkSum : List Nat
deriving DecidableEq

/-- Resend entry structure used by the chunk queue and the rescheduler. -/
structure ResendEntry where
  fileIndex : Nat
  offset : Nat
  length : Nat
deriving DecidableEq

/-- MetaDataStatus value 0: no error. -/
def noErr : Nat := 0

/-- MetaDataStatus value 1: file does not exist. -/
def fileNotExistent : Nat := 1

/-- MetaDataStatus value 2: file is empty. -/
def fileEmpty : Nat := 2

/-! ### Chunk queue (queue.go) -/

/-- Per-file queue of received payloads with the file size and index. -/
structure chunkQueue where
  items : List ServerPayload
  max : Nat
  fileIndex : Nat
deriving DecidableEq

/-- Go `uint64` subtraction `a - b` (wraps modulo `2^64`). -/
def sub64 (a b : Nat) : Nat := (a % 2 ^ 64 + (2 ^ 64 - b % 2 ^ 64)) % 2 ^ 64

/-- Go `uint64` addition `a + b` (wraps modulo `2^64`). -/
def add64 (a b : Nat) : Nat := (a + b) % 2 ^ 64

/-- Inner loop of `Gaps`: `for i < c.Len()-1 { if c.items[i].offset > first
{ break }; first++; i++ }`. The list argument is the remaining suffix of the
sorted offsets from index `i`; the loop never consumes the final element. -/
def consume (first : Nat) : List Nat → Nat × List Nat
  | [] => (first, [])
  | [x] => (first, [x])
  | x :: y :: rest =>
    if first < x then (first, x :: y :: rest)
    else consume (add64 first 1) (y :: rest)

/-- Outer loop of `Gaps` over the sorted offsets. Each iteration computes
`length = items[i].offset - first` in `uint64` arithmetic, clamps it to 255
(marking a split), emits an entry at `first`, advances `first` past the
emitted run, and on a non-split emission moves to the next item and runs the
inner `consume` loop. The first argument is fuel bounding the number of
iterations of the source's `for` loop. -/
def gapsAux (fi : Nat) : Nat → Nat → List Nat → List ResendEntry
  | 0, _, _ => []
  | _fuel+1, _first, [] => []
  | fuel+1, first, o :: rest =>
    let length := sub64 o first
    if 255 < length then
      ⟨fi, first, 255⟩ :: gapsAux fi fuel (add64 first 256) (o :: rest)
    else
      let s := consume (add64 first (length + 1)) rest
      ⟨fi, first, length⟩ :: gapsAux fi fuel s.1 s.2

/-- Offsets of the stored payloads after `sort.Sort(c)`, which orders the
items by offset (`Less` compares offsets); `Gaps` reads only the offsets of
the sorted items. -/
def sortedOffsets (q : chunkQueue) : List Nat :=
  List.insertionSort (· ≤ ·) (q.items.map (·.offset))

/-- The `Gaps` method: sorts the items by offset and walks them with the loop
above. (The deferred `heap.Init` only rearranges the stored items and does
not affect the returned list.) The fuel passed to `gapsAux` bounds the loop's
iteration count; every iteration either strictly advances `first` modulo
`2^64` with the item index fixed, or advances the item index, so
`2^64 * (length + 1)` iterations can never be reached. -/
def chunkQueue.Gaps (q : chunkQueue) (first : Nat) : List ResendEntry :=
  let xs := sortedOffsets q
  gapsAux q.fileIndex (2 ^ 64 * (xs.length + 1)) first xs

/-- The `Top` method. `heap.Pop` on a non-empty heap swaps the root to the
back, sifts down, and returns that removed element — the original
`items[0]` — which the deferred `heap.Push` then reinserts; an empty queue
returns 0. The returned value is the root of the min-heap (the `Less` method
orders by `<` on offsets, so `container/heap` maintains a minimum at the
root). -/
def chunkQueue.Top (q : chunkQueue) : Nat :=
  match q.items with
  | [] => 0
  | p :: _ => p.offset

/-- A resend entry covers the chunk offsets `offset` through
`offset + length`. -/
def covers (e : ResendEntry) (k : Nat) : Prop :=
  e.offset ≤ k ∧ k ≤ e.offset + e.length

instance (e : ResendEntry) (k : Nat) : Decidable (covers e k) := by
  unfold covers; infer_instance

/-- Number of entries of `es` that cover the offset `k`. -/
def countCovering (k : Nat) (es : List ResendEntry) : Nat :=
  es.countP (fun e => decide (covers e k))

/-- The entries start at or after `lo`, are ordered, and cover pairwise
disjoint offset ranges. -/
def DisjChain : Nat → List ResendEntry → Prop
  | _, [] => True
  | lo, e :: es => lo ≤ e.offset ∧ DisjChain (e.offset + e.length + 1) es

/-- Offsets currently stored in a chunk queue. -/
def offsetsOf (q : chunkQueue) : List Nat := q.items.map (·.offset)

/-- Maximum of a list of naturals (0 for the empty list). -/
def listMax (l : List Nat) : Nat := l.foldr max 0

/-- Binary min-heap invariant of `container/heap` for the offsets laid out in
`items`: every node is at most its children at indexes `2j+1` and `2j+2`. -/
def heapOrdered (xs : List Nat) : Prop :=
  ∀ j < xs.length, ∀ c < xs.length, (c = 2 * j + 1 ∨ c = 2 * j + 2) →
    xs.getD j 0 ≤ xs.getD c 0

instance (xs : List Nat) : Decidable (heapOrdered xs) := by
  unfold heapOrdered; infer_instance

/-! ### Producer (server.go `getResponse`) -/

/-- Event emitted by the producer, in program order: payloads go to the
payload channel and metadata to the metadata channel. -/
inductive ProducerEvent where
  | payload (p : ServerPayload)
  | metadata (m : ServerMetaData)
deriving DecidableEq

/-- Chunk-reading loop of the producer for one file, starting at chunk index
`off`. Each iteration models `fr.sr.ReadAt(buf, 1024*off)` on an
`io.SectionReader` over `content`: it yields the bytes
`content[1024*off : 1024*off+1024]` and reports `io.EOF` exactly when the
read reaches or passes the end of the section, i.e. when
`content.length < 1024*(off+1)`; the payload is emitted in either case and
the loop stops on EOF. -/
def produceChunks (content : List Nat) (idx : Nat) (off : Nat) : List ServerPayload :=
  let buf := (content.drop (1024 * off)).take 1024
  if content.length < 1024 * (off + 1) then [⟨idx, 0, off, buf⟩]
  else ⟨idx, 0, off, buf⟩ :: produceChunks content idx (off + 1)
termination_by content.length - 1024 * off
decreasing_by omega

/-- Producer behaviour for a single file of the request, parameterised by the
digest function `hash` (the `md5.New` hasher accumulates every `buf[:n]`
written to it, so its final sum is `hash` of the concatenated reads, of which
`copy` takes the first 16 bytes). A `none` file models a nil
`io.SectionReader` from the file handler. -/
def getResponseFile (hash : List Nat → List Nat) (idx : Nat) (file : Option (List Nat)) :
    List ProducerEvent :=
  match file with
  | none => [.metadata ⟨fileNotExistent, idx, 0, List.replicate 16 0⟩]
  | some content =>
    if content.length = 0 then [.metadata ⟨fileEmpty, idx, 0, List.replicate 16 0⟩]
    else
      let ps := produceChunks content idx 0
      ps.map .payload ++
        [.metadata ⟨noErr, idx, content.length, (hash ((ps.map (·.data)).flatten)).take 16⟩]

/-- Full producer run over the requested files, in order; file `i` is served
with `fileIndex = uint16(i)`. -/
def getResponse (hash : List Nat → List Nat) (files : List (Option (List Nat))) :
    List ProducerEvent :=
  (files.mapIdx fun i file => getResponseFile hash (i % 2 ^ 16) file).flatten

/-! ### Rescheduler (server.go `rescheduler`) -/

/-- Modelled from the spec: the declaration of the server-side `ClientAck`
struct is not among the sources (only its uses in server.go are); per the
spec, bit 0 of the wire `status` byte is surfaced to the server as the
`metaDataMissing` flag, and the remaining fields are the ones server.go
reads. -/
structure ClientAck where
  ackNumber : Nat
  fileIndex : Nat
  metaDataMissing : Bool
  maxTransmissionRate : Nat
  offset : Nat
  resendEntries : List ResendEntry
deriving DecidableEq

/-- Inner chunk loop for one resend entry: `for i := 0; i < re.length; i++`
fetches the cached payloads at `offset`, `offset+1`, …, stopping at the
first cache miss (`break`). -/
def resendChunks (cache : Nat → Nat → Option ServerPayload) (fi off : Nat) :
    Nat → List ServerPayload
  | 0 => []
  | n+1 =>
    match cache fi off with
    | some p => p :: resendChunks cache fi (off + 1) n
    | none => []

/-- Insertion into a set of keys kept as a duplicate-free list (models adding
a key to a Go map used as a set; iteration order of the model is insertion
order). -/
def insertKey (k : Nat) (l : List Nat) : List Nat :=
  if k ∈ l then l else l ++ [k]

/-- State threaded through one ack's processing: the persistent
`resendScheduled` set of (fileIndex, offset) pairs, the payloads pushed to
the resend channel in order, and the local `metadata` key set. -/
structure ReschedOut where
  scheduled : List (Nat × Nat)
  resendQ : List ServerPayload
  metaKeys : List Nat
deriving DecidableEq

/-- Processing of one resend entry by the rescheduler: a zero length flags
the entry's file for metadata resend; the entry's base offset is deduped via
the `resendScheduled` set; if the base offset is cached, a zero-length entry
resends that single payload, and the chunk loop resends `length` consecutive
payloads starting at the base offset. -/
def processEntry (cache : Nat → Nat → Option ServerPayload) (re : ResendEntry)
    (st : ReschedOut) : ReschedOut :=
  let st1 := if re.length = 0 then { st with metaKeys := insertKey re.fileIndex st.metaKeys } else st
  if (re.fileIndex, re.offset) ∈ st1.scheduled then st1
  else
    let st2 := { st1 with scheduled := st1.scheduled ++ [(re.fileIndex, re.offset)] }
    match cache re.fileIndex re.offset with
    | none => st2
    | some p =>
      let st3 := if re.length = 0 then { st2 with resendQ := st2.resendQ ++ [p] } else st2
      { st3 with resendQ := st3.resendQ ++ resendChunks cache re.fileIndex re.offset re.length }

/-- Indexed loop over the sorted resend entries; when the ack advertises a
non-zero `maxTransmissionRate`, the loop breaks once the entry index exceeds
it. -/
def processEntries (cache : Nat → Nat → Option ServerPayload) (rate : Nat) :
    Nat → List ResendEntry → ReschedOut → ReschedOut
  | _, [], st => st
  | i, re :: res, st =>
    if 0 < rate ∧ rate < i then st
    else processEntries cache rate (i + 1) res (processEntry cache re st)

/-- The resend entries sorted by offset, modelling `sort.Sort` with the
`resendEntryList` ordering (`Less` compares offsets). -/
def sortEntries (es : List ResendEntry) : List ResendEntry :=
  List.insertionSort (fun a b => a.offset ≤ b.offset) es

/-- Processing of one ack received on the reschedule channel: seed the local
metadata set from the `metaDataMissing` flag, sort the entries by offset,
requeue the high-water payload when the entry list is empty, run the entry
loop, and finally resend the metadata of every flagged file found in the
metadata cache. Returns the final state and the metadata messages pushed to
the metadata channel. -/
def processAck (cache : Nat → Nat → Option ServerPayload)
    (metadataCache : Nat → Option ServerMetaData)
    (scheduled : List (Nat × Nat)) (ack : ClientAck) :
    ReschedOut × List ServerMetaData :=
  let metaKeys := if ack.metaDataMissing then [ack.fileIndex] else []
  let es := sortEntries ack.resendEntries
  let init : ReschedOut :=
    if ack.resendEntries.length = 0 then
      match cache ack.fileIndex ack.offset with
      | some p => ⟨scheduled, [p], metaKeys⟩
      | none => ⟨scheduled, [], metaKeys⟩
    else ⟨scheduled, [], metaKeys⟩
  let out := processEntries cache ack.maxTransmissionRate 0 es init
  (out, out.metaKeys.filterMap metadataCache)

/-! ### Cleaner (server.go) -/

/-- Observable state of a `Cleaner`: the `closedState` flag, one notification
counter per subscribed channel (in subscription order), and the number of
times the cleanup callback has run. -/
structure CleanerState where
  closedState : Bool
  subs : List Nat
  cbCount : Nat
deriving DecidableEq

/-- The two `Cleaner` operations relevant to the close-notification
behaviour; both take the same `closeLock`, so any concurrent execution is a
sequence of these steps. -/
inductive CleanerOp where
  | subscribe
  | close
deriving DecidableEq

/-- One `Cleaner` step. `subscribe` appends a fresh buffered channel and, if
the cleaner is already closed, immediately sends it one notification.
`close` returns at once if `closedState` is already set; otherwise it sets
the flag, sends one notification to every subscribed channel and invokes the
cleanup callback. -/
def cleanerStep (st : CleanerState) : CleanerOp → CleanerState
  | .subscribe => { st with subs := st.subs ++ [if st.closedState then 1 else 0] }
  | .close =>
    if st.closedState then st
    else ⟨true, st.subs.map (· + 1), st.cbCount + 1⟩

/-- A `Cleaner` run from the initial state (open, no subscribers). -/
def cleanerRun (ops : List CleanerOp) : CleanerState :=
  ops.foldl cleanerStep ⟨false, [], 0⟩

/-! ### Helper lemmas: byte encodings -/

theorem beBytes_length (k x : Nat) : (beBytes k x).length = k := by
  induction k generalizing x with
  | zero => simp [beBytes]
  | succ k ih => simp [beBytes, ih]

theorem beBytes_lt (k x : Nat) : ∀ b ∈ beBytes k x, b < 256 := by
  induction k generalizing x with
  | zero => simp [beBytes]
  | succ k ih =>
    intro b hb
    simp only [beBytes, List.mem_append, List.mem_singleton] at hb
    rcases hb with h | h
    · exact ih _ _ h
    · omega

theorem readBE_foldl_init (bs : List Nat) (a : Nat) :
    bs.foldl (fun a b => a * 256 + b) a = a * 256 ^ bs.length + readBE bs := by
  induction bs generalizing a with
  | nil => simp [readBE]
  | cons b bs ih =>
    simp only [List.foldl_cons, readBE, List.length_cons]
    rw [ih (a * 256 + b), ih (0 * 256 + b)]
    ring

theorem readBE_append (l r : List Nat) :
    readBE (l ++ r) = readBE l * 256 ^ r.length + readBE r := by
  simp only [readBE, List.foldl_append]
  rw [readBE_foldl_init]
  rfl

theorem readBE_beBytes (k x : Nat) : readBE (beBytes k x) = x % 256 ^ k := by
  induction k generalizing x with
  | zero => simp [beBytes, readBE, Nat.mod_one]
  | succ k ih =>
    rw [beBytes, readBE_append]
    simp only [List.length_singleton, pow_one]
    rw [ih]
    have : readBE [x % 256] = x % 256 := by simp [readBE]
    rw [this]
    rw [pow_succ, Nat.mul_comm (256 ^ k) 256, Nat.mod_mul]
    ring

theorem beBytes_split (a b x : Nat) :
    beBytes (a + b) x = beBytes a (x / 256 ^ b) ++ beBytes b x := by
  induction b generalizing x with
  | zero => simp [beBytes]
  | succ b ih =>
    have : a + (b + 1) = (a + b) + 1 := by omega
    rw [this, beBytes, ih, beBytes]
    simp only [List.append_assoc]
    rw [Nat.div_div_eq_div_mul, pow_succ, Nat.mul_comm 256 (256 ^ b)]

theorem readBE_cons_zero (l : List Nat) : readBE (0 :: l) = readBE l := by
  simp [readBE]

theorem readBE_u16be (x : Nat) (h : x < 2 ^ 16) : readBE (u16be x) = x := by
  rw [u16be, readBE_beBytes]
  have : (256 : Nat) ^ 2 = 2 ^ 16 := by norm_num
  rw [this]
  exact Nat.mod_eq_of_lt h

theorem readBE_u32be (x : Nat) (h : x < 2 ^ 32) : readBE (u32be x) = x := by
  rw [u32be, readBE_beBytes]
  have : (256 : Nat) ^ 4 = 2 ^ 32 := by norm_num
  rw [this]
  exact Nat.mod_eq_of_lt h

theorem readBE_u64be (x : Nat) (h : x < 2 ^ 64) : readBE (u64be x) = x := by
  rw [u64be, readBE_beBytes]
  have : (256 : Nat) ^ 8 = 2 ^ 64 := by norm_num
  rw [this]
  exact Nat.mod_eq_of_lt h

theorem u64be_drop_one (x : Nat) : (u64be x).drop 1 = beBytes 7 x := by
  have h8 : (8 : Nat) = 1 + 7 := by norm_num
  rw [u64be, h8, beBytes_split]
  exact List.drop_left' (beBytes_length 1 (x / 256 ^ 7))

theorem uintOffset_sevenByte (x : Nat) :
    uintOffset ((u64be x).drop 1) = x % 2 ^ 56 := by
  rw [u64be_drop_one, uintOffset, readBE_cons_zero, readBE_beBytes]
  norm_num

/-! ### C10 -/

/-- C10: for every uint64 value x, `uintOffset (sevenByteOffset x)` equals
`x mod 2^56`, and `sevenByteOffset` never returns an error: at this layer an
offset of `2^56` or larger is silently truncated to its low 56 bits rather
than rejected. (The statement holds for every natural `x`; `x < 2^64` is the
special case of Go's `uint64` arguments.) -/
theorem sevenByteOffset_uintOffset_mod (x : Nat) :
    ∃ bs, sevenByteOffset x = some bs ∧ uintOffset bs = x % 2 ^ 56 := by
  refine ⟨(u64be x).drop 1, rfl, ?_⟩
  exact uintOffset_sevenByte x

/-! ### C4 -/

theorem marshalEntries_isSome (res : List resendEntry) :
    (marshalEntries res).isSome = true := by
  induction res with
  | nil => rfl
  | cons re rest ih =>
    simp only [marshalEntries, sevenByteOffset]
    cases h : marshalEntries rest with
    | none => rw [h] at ih; simp at ih
    | some bs => simp

theorem marshalFiles_none_of_large (fs : List fileDescriptor)
    (h : ∃ f ∈ fs, maxFileOffset < f.offset) : marshalFiles fs = none := by
  induction fs with
  | nil => simp at h
  | cons f rest ih =>
    obtain ⟨g, hg, hlt⟩ := h
    rcases List.mem_cons.mp hg with rfl | hg'
    · simp [marshalFiles, hlt]
    · by_cases hf : maxFileOffset < f.offset
      · simp [marshalFiles, hf]
      · simp [marshalFiles, hf, sevenByteOffset, ih ⟨g, hg', hlt⟩]

/-- C4 (amended): only `clientRequest.MarshalBinary` rejects offsets above
`2^56 - 1` (returning an error and no bytes); `serverPayload.MarshalBinary`
and `clientAck.MarshalBinary` perform no bound check and always succeed, the
offsets being silently truncated to their low 56 bits on the wire. -/
theorem marshal_offset_check_only_clientRequest :
    (∀ s : clientRequest, (∃ f ∈ s.files, maxFileOffset < f.offset) →
      s.MarshalBinary = none) ∧
    (∀ s : serverPayload, ∃ bs, s.MarshalBinary = some bs) ∧
    (∀ c : clientAck, ∃ bs, c.MarshalBinary = some bs) := by
  refine ⟨?_, ?_, ?_⟩
  · intro s h
    simp [clientRequest.MarshalBinary, marshalFiles_none_of_large s.files h]
  · intro s
    exact ⟨_, rfl⟩
  · intro c
    rw [← Option.isSome_iff_exists]
    have h := marshalEntries_isSome c.resendEntries
    rw [Option.isSome_iff_exists] at h
    obtain ⟨bs, hbs⟩ := h
    simp [clientAck.MarshalBinary, sevenByteOffset, hbs]

/-- C4 (counterexample): a `serverPayload` and a `clientAck` whose offset is
`2^56` (one above the 56-bit maximum) marshal successfully instead of
returning an error, refuting the claim that every encoder rejects such
offsets. -/
theorem serverPayload_large_offset_marshals :
    maxFileOffset < 2 ^ 56 ∧
    (serverPayload.MarshalBinary ⟨0, 0, 2 ^ 56, []⟩).isSome = true ∧
    (clientAck.MarshalBinary ⟨0, 0, 0, 0, 2 ^ 56, []⟩).isSome = true := by
  decide

/-- C4 (witness): the amended theorem applied at concrete messages. -/
theorem marshal_offset_check_only_clientRequest_witness :
    clientRequest.MarshalBinary ⟨0, [⟨2 ^ 56, []⟩]⟩ = none ∧
    (∃ bs, serverPayload.MarshalBinary ⟨0, 0, 5, []⟩ = some bs) ∧
    (∃ bs, clientAck.MarshalBinary ⟨1, 2, 3, 4, 5, []⟩ = some bs) :=
  ⟨marshal_offset_check_only_clientRequest.1 ⟨0, [⟨2 ^ 56, []⟩]⟩
      ⟨⟨2 ^ 56, []⟩, by decide⟩,
    marshal_offset_check_only_clientRequest.2.1 ⟨0, 0, 5, []⟩,
    marshal_offset_check_only_clientRequest.2.2 ⟨1, 2, 3, 4, 5, []⟩⟩

/-! ### C5 -/

/-- C5: inputs shorter than the fixed prefix make the decoders read out of
range (a runtime panic) instead of returning a Truncated error: the header
decoder accepts a 2-byte input past its only length check and then reads
`data[2]`; the body decoders have no length check at all. -/
theorem unmarshal_short_input_out_of_range :
    msgHeader.UnmarshalBinary [16, 0] = .oob ∧
    clientRequest.UnmarshalBinary [0, 0, 0] = .oob ∧
    serverMetaData.UnmarshalBinary (List.replicate 27 0) = .oob ∧
    serverPayload.UnmarshalBinary (List.replicate 8 0) = .oob ∧
    clientAck.UnmarshalBinary (List.replicate 13 0) = .oob := by
  decide

/-! ### C6 -/

theorem heapOrdered_root_le (xs : List Nat) (h : heapOrdered xs) :
    ∀ i < xs.length, xs.getD 0 0 ≤ xs.getD i 0 := by
  intro i
  induction i using Nat.strong_induction_on with
  | _ i ih =>
    intro hi
    rcases Nat.eq_zero_or_pos i with rfl | hpos
    · exact Nat.le_refl _
    · have hp : (i - 1) / 2 < i := by omega
      have hchild : i = 2 * ((i - 1) / 2) + 1 ∨ i = 2 * ((i - 1) / 2) + 2 := by omega
      have h1 : xs.getD ((i - 1) / 2) 0 ≤ xs.getD i 0 :=
        h ((i - 1) / 2) (by omega) i hi hchild
      have h2 : xs.getD 0 0 ≤ xs.getD ((i - 1) / 2) 0 := ih _ hp (by omega)
      exact Nat.le_trans h2 h1

/-- C6 (amended): `Top` returns the root of the min-heap — the element that
`heap.Pop` removes — which is the minimum stored offset whenever the items
satisfy the `container/heap` invariant (and 0 for an empty queue), not the
maximum. -/
theorem Top_returns_heap_root_min (q : chunkQueue)
    (h : heapOrdered (offsetsOf q)) (hne : q.items ≠ []) :
    q.Top ∈ offsetsOf q ∧ ∀ o ∈ offsetsOf q, q.Top ≤ o := by
  match hq : q.items with
  | [] => exact absurd hq hne
  | p :: rest =>
    have hofs : offsetsOf q = p.offset :: rest.map (·.offset) := by
      simp [offsetsOf, hq]
    have htop : q.Top = p.offset := by
      simp [chunkQueue.Top, hq]
    constructor
    · rw [htop, hofs]; exact List.mem_cons_self _ _
    · intro o ho
      rw [hofs] at ho
      obtain ⟨i, hi, hget⟩ := List.getElem_of_mem ho
      have hroot := heapOrdered_root_le (offsetsOf q) h i (by rw [hofs]; exact hi)
      rw [htop]
      have h0 : (offsetsOf q).getD 0 0 = p.offset := by rw [hofs]; rfl
      have hio : (offsetsOf q).getD i 0 = o := by
        rw [hofs, List.getD_eq_getElem (p.offset :: rest.map (·.offset)) 0 hi, hget]
      rw [h0, hio] at hroot
      exact hroot

/-- C6 (counterexample): the queue holding received offsets {0, 300} (laid
out as a valid min-heap) has `Top() = 0`, the minimum, while `max(S) = 300`,
refuting the claim that `Top()` returns the maximum. -/
theorem Top_not_max :
    heapOrdered (offsetsOf ⟨[⟨0, 0, 0, []⟩, ⟨0, 0, 300, []⟩], 0, 0⟩) ∧
    chunkQueue.Top ⟨[⟨0, 0, 0, []⟩, ⟨0, 0, 300, []⟩], 0, 0⟩ = 0 ∧
    listMax (offsetsOf ⟨[⟨0, 0, 0, []⟩, ⟨0, 0, 300, []⟩], 0, 0⟩) = 300 := by
  refine ⟨by decide, by decide, by decide⟩

/-- C6 (witness): the amended theorem applied to the two-element heap
`[0, 300]`. -/
theorem Top_returns_heap_root_min_witness :
    chunkQueue.Top ⟨[⟨0, 0, 0, []⟩, ⟨0, 0, 300, []⟩], 0, 0⟩ ∈
      offsetsOf ⟨[⟨0, 0, 0, []⟩, ⟨0, 0, 300, []⟩], 0, 0⟩ ∧
    ∀ o ∈ offsetsOf ⟨[⟨0, 0, 0, []⟩, ⟨0, 0, 300, []⟩], 0, 0⟩,
      chunkQueue.Top ⟨[⟨0, 0, 0, []⟩, ⟨0, 0, 300, []⟩], 0, 0⟩ ≤ o :=
  Top_returns_heap_root_min ⟨[⟨0, 0, 0, []⟩, ⟨0, 0, 300, []⟩], 0, 0⟩
    (by decide) (by decide)

/-! ### C3 -/

/-- C3 (counterexample): for received offsets {0, 300}, `Gaps(0)` does not
return the two entries the specification demands. -/
theorem Gaps_long_gap_not_spec :
    chunkQueue.Gaps ⟨[⟨0, 0, 0, []⟩, ⟨0, 0, 300, []⟩], 0, 0⟩ 0 ≠
      [⟨0, 1, 255⟩, ⟨0, 257, 42⟩] := by
  decide

/-- C3 (amended): for received offsets {0, 300}, `Gaps(0)` returns three
entries: a spurious `{offset 0, length 0}` at the received offset 0, then
`{offset 1, length 255}` and `{offset 257, length 43}` — the final entry
extends through the received offset 300 (length 43, not 42). -/
theorem Gaps_long_gap_actual :
    chunkQueue.Gaps ⟨[⟨0, 0, 0, []⟩, ⟨0, 0, 300, []⟩], 0, 0⟩ 0 =
      [⟨0, 0, 0⟩, ⟨0, 1, 255⟩, ⟨0, 257, 43⟩] := by
  decide

/-! ### C9 -/

theorem cleanerStep_close_closed (st : CleanerState) :
    (cleanerStep st .close).closedState = true := by
  by_cases hc : st.closedState = true <;> simp [cleanerStep, hc]

theorem cleanerStep_closed_mono (st : CleanerState) (op : CleanerOp)
    (h : st.closedState = true) : (cleanerStep st op).closedState = true := by
  cases op with
  | subscribe => exact h
  | close => exact cleanerStep_close_closed st

theorem cleanerFoldl_closed_mono (ops : List CleanerOp) (st : CleanerState)
    (h : st.closedState = true) : (ops.foldl cleanerStep st).closedState = true := by
  induction ops generalizing st with
  | nil => exact h
  | cons op rest ih => exact ih _ (cleanerStep_closed_mono st op h)

theorem cleanerFoldl_closed_of_mem (ops : List CleanerOp) (st : CleanerState)
    (h : CleanerOp.close ∈ ops) : (ops.foldl cleanerStep st).closedState = true := by
  induction ops generalizing st with
  | nil => simp at h
  | cons op rest ih =>
    rcases List.mem_cons.mp h with rfl | hmem
    · exact cleanerFoldl_closed_mono rest _ (cleanerStep_close_closed st)
    · exact ih _ hmem

theorem cleaner_inv_step (st : CleanerState) (op : CleanerOp)
    (h1 : st.closedState = true → ∀ n ∈ st.subs, n = 1)
    (h0 : st.closedState = false → ∀ n ∈ st.subs, n = 0) :
    ((cleanerStep st op).closedState = true → ∀ n ∈ (cleanerStep st op).subs, n = 1) ∧
    ((cleanerStep st op).closedState = false → ∀ n ∈ (cleanerStep st op).subs, n = 0) := by
  cases op with
  | subscribe =>
    simp only [cleanerStep]
    constructor
    · intro hcl n hn
      rcases List.mem_append.mp hn with hm | hm
      · exact h1 hcl n hm
      · simp only [List.mem_singleton] at hm
        subst hm
        simp [hcl]
    · intro hcl n hn
      rcases List.mem_append.mp hn with hm | hm
      · exact h0 hcl n hm
      · simp only [List.mem_singleton] at hm
        subst hm
        simp [hcl]
  | close =>
    by_cases hc : st.closedState = true
    · have hstep : cleanerStep st .close = st := by simp [cleanerStep, hc]
      rw [hstep]
      exact ⟨h1, h0⟩
    · have hc' : st.closedState = false := by simp at hc; exact hc
      simp only [cleanerStep, hc', Bool.false_eq_true, if_false]
      constructor
      · intro _ n hn
        obtain ⟨m, hm, rfl⟩ := List.mem_map.mp hn
        have := h0 hc' m hm
        omega
      · intro hcl
        simp at hcl
  
theorem cleaner_foldl_inv (ops : List CleanerOp) (st : CleanerState)
    (h1 : st.closedState = true → ∀ n ∈ st.subs, n = 1)
    (h0 : st.closedState = false → ∀ n ∈ st.subs, n = 0) :
    ((ops.foldl cleanerStep st).closedState = true →
      ∀ n ∈ (ops.foldl cleanerStep st).subs, n = 1) ∧
    ((ops.foldl cleanerStep st).closedState = false →
      ∀ n ∈ (ops.foldl cleanerStep st).subs, n = 0) := by
  induction ops generalizing st with
  | nil => exact ⟨h1, h0⟩
  | cons op rest ih =>
    have hstep := cleaner_inv_step st op h1 h0
    exact ih _ hstep.1 hstep.2

/-- C9: in every sequence of `subscribe` and `close` calls (the operations
are serialised by the cleaner's lock) containing at least one `close`, every
subscriber's channel — subscribed before or after the close — ends up having
received exactly one close notification; in particular a second `close` call
notifies nobody a second time. -/
theorem cleaner_subscribers_notified_once (ops : List CleanerOp)
    (h : CleanerOp.close ∈ ops) :
    ∀ n ∈ (cleanerRun ops).subs, n = 1 := by
  have hinv := cleaner_foldl_inv ops ⟨false, [], 0⟩ (by simp) (by simp)
  exact hinv.1 (cleanerFoldl_closed_of_mem ops _ h)

/-- C9 (witness): a subscriber before the close, a double close, and a late
subscriber: both channels (the run ends with two subscribers) receive exactly
one notification. -/
theorem cleaner_subscribers_notified_once_witness :
    (cleanerRun [.subscribe, .close, .close, .subscribe]).subs.length = 2 ∧
    (cleanerRun [.subscribe, .close, .close, .subscribe]).subs.getD 0 7 = 1 ∧
    (cleanerRun [.subscribe, .close, .close, .subscribe]).subs.getD 1 7 = 1 :=
  ⟨by decide,
   cleaner_subscribers_notified_once [.subscribe, .close, .close, .subscribe]
     (by decide) _ (by decide),
   cleaner_subscribers_notified_once [.subscribe, .close, .close, .subscribe]
     (by decide) _ (by decide)⟩

/-! ### C7 -/

theorem produceChunks_spec (c : List Nat) (idx : Nat) :
    ∀ (k off : Nat), c.length / 1024 - off = k → off ≤ c.length / 1024 →
      ((produceChunks c idx off).map (·.offset) =
        List.range' off (c.length / 1024 + 1 - off) ∧
      ((produceChunks c idx off).map (·.data)).flatten = c.drop (1024 * off) ∧
      ∀ p ∈ produceChunks c idx off,
        p.fileIndex = idx ∧ p.data = (c.drop (1024 * p.offset)).take 1024) := by
  intro k
  induction k with
  | zero =>
    intro off hsub hle
    have hoff : c.length / 1024 = off := by omega
    have hcond : c.length < 1024 * (off + 1) := by omega
    rw [produceChunks, if_pos hcond]
    have hcount : c.length / 1024 + 1 - off = 1 := by omega
    refine ⟨?_, ?_, ?_⟩
    · simp [hcount]
    · have hlen : (c.drop (1024 * off)).length ≤ 1024 := by
        simp only [List.length_drop]
        omega
      simp [List.take_of_length_le hlen]
    · intro p hp
      simp only [List.mem_singleton] at hp
      subst hp
      exact ⟨rfl, rfl⟩
  | succ k ih =>
    intro off hsub hle
    have hlt : off < c.length / 1024 := by omega
    have hcond : ¬ c.length < 1024 * (off + 1) := by omega
    rw [produceChunks, if_neg hcond]
    obtain ⟨ih1, ih2, ih3⟩ := ih (off + 1) (by omega) (by omega)
    refine ⟨?_, ?_, ?_⟩
    · have hcount : c.length / 1024 + 1 - off = (c.length / 1024 + 1 - (off + 1)) + 1 := by
        omega
      rw [hcount, List.range'_succ]
      simp [ih1]
    · simp only [List.map_cons, List.flatten_cons, ih2]
      have hdd : c.drop (1024 * (off + 1)) = (c.drop (1024 * off)).drop 1024 := by
        rw [List.drop_drop, show 1024 * off + 1024 = 1024 * (off + 1) from by ring]
      rw [hdd, List.take_append_drop]
    · intro p hp
      rcases List.mem_cons.mp hp with rfl | hp'
      · exact ⟨rfl, rfl⟩
      · exact ih3 p hp'

/-- C7: for each requested file, the producer behaves as specified: an absent
file yields exactly one metadata event with status `fileNotExistent`; an
empty file yields exactly one metadata event with status `fileEmpty` (in each
case the loop continues with the next file); a file of size n > 0 yields
payloads whose chunk offsets are exactly 0, 1, 2, … in strictly increasing
order, each carrying at most 1024 bytes read from the file at its chunk
position, followed by exactly one terminal metadata event with status 0
(`noErr`), size n, and the digest of precisely the bytes read. -/
theorem getResponse_per_file (hash : List Nat → List Nat) (idx : Nat) :
    (getResponseFile hash idx none =
      [.metadata ⟨fileNotExistent, idx, 0, List.replicate 16 0⟩]) ∧
    (∀ c : List Nat, c.length = 0 →
      getResponseFile hash idx (some c) =
        [.metadata ⟨fileEmpty, idx, 0, List.replicate 16 0⟩]) ∧
    (∀ c : List Nat, 0 < c.length → ∃ ps : List ServerPayload,
      getResponseFile hash idx (some c) =
        ps.map ProducerEvent.payload ++
          [.metadata ⟨noErr, idx, c.length, (hash c).take 16⟩] ∧
      ps.map (·.offset) = List.range (c.length / 1024 + 1) ∧
      (∀ p ∈ ps, p.fileIndex = idx ∧ p.data.length ≤ 1024 ∧
        p.data = (c.drop (1024 * p.offset)).take 1024) ∧
      (ps.map (·.data)).flatten = c) := by
  refine ⟨rfl, ?_, ?_⟩
  · intro c hc
    simp [getResponseFile, hc]
  · intro c hc
    have hne : ¬ c.length = 0 := by omega
    obtain ⟨h1, h2, h3⟩ := produceChunks_spec c idx (c.length / 1024 - 0) 0 rfl (by omega)
    refine ⟨produceChunks c idx 0, ?_, ?_, ?_, ?_⟩
    · simp only [getResponseFile, hne, if_false]
      have hflat : ((produceChunks c idx 0).map (·.data)).flatten = c := by
        simpa using h2
      rw [hflat]
    · rw [h1, Nat.sub_zero, List.range_eq_range']
    · intro p hp
      obtain ⟨hfi, hdata⟩ := h3 p hp
      refine ⟨hfi, ?_, hdata⟩
      rw [hdata]
      exact List.length_take_le _ _
    · simpa using h2
  
/-- C7 (witness): the per-file producer theorem applied to a constant digest
function, an absent file, an empty file, and the 3-byte file [1, 2, 3]
(one chunk at offset 0). -/
theorem getResponse_per_file_witness :
    (getResponseFile (fun _ => List.replicate 16 0) 0 none =
      [.metadata ⟨fileNotExistent, 0, 0, List.replicate 16 0⟩]) ∧
    (getResponseFile (fun _ => List.replicate 16 0) 0 (some []) =
      [.metadata ⟨fileEmpty, 0, 0, List.replicate 16 0⟩]) ∧
    (∃ ps : List ServerPayload,
      getResponseFile (fun _ => List.replicate 16 0) 0 (some [1, 2, 3]) =
        ps.map ProducerEvent.payload ++
          [.metadata ⟨noErr, 0, 3, ((fun (_ : List Nat) => List.replicate 16 0) [1, 2, 3]).take 16⟩] ∧
      ps.map (·.offset) = List.range ([1, 2, 3].length / 1024 + 1) ∧
      (∀ p ∈ ps, p.fileIndex = 0 ∧ p.data.length ≤ 1024 ∧
        p.data = ([1, 2, 3].drop (1024 * p.offset)).take 1024) ∧
      (ps.map (·.data)).flatten = [1, 2, 3]) :=
  ⟨(getResponse_per_file (fun _ => List.replicate 16 0) 0).1,
    (getResponse_per_file (fun _ => List.replicate 16 0) 0).2.1 [] rfl,
    (getResponse_per_file (fun _ => List.replicate 16 0) 0).2.2 [1, 2, 3] (by decide)⟩

/-! ### C8 -/

theorem resendChunks_all_cached (cache : Nat → Nat → Option ServerPayload) (fi : Nat) :
    ∀ (n off : Nat), (∀ j < n, (cache fi (off + j)).isSome = true) →
      resendChunks cache fi off n = (List.range' off n).filterMap (cache fi) ∧
      (resendChunks cache fi off n).length = n := by
  intro n
  induction n with
  | zero => intro off _; exact ⟨rfl, rfl⟩
  | succ n ih =>
    intro off h
    have h0 : (cache fi off).isSome = true := by
      have := h 0 (by omega)
      simpa using this
    obtain ⟨p, hp⟩ := Option.isSome_iff_exists.mp h0
    have hrest : ∀ j < n, (cache fi (off + 1 + j)).isSome = true := by
      intro j hj
      have := h (j + 1) (by omega)
      have harith : off + (j + 1) = off + 1 + j := by omega
      rwa [harith] at this
    obtain ⟨ih1, ih2⟩ := ih (off + 1) hrest
    constructor
    · rw [List.range'_succ]
      simp only [resendChunks, hp, List.filterMap_cons]
      rw [ih1]
    · simp only [resendChunks, hp, List.length_cons, ih2]

/-- C8 (amended): for an ack carrying the single resend entry
{fileIndex f, offset o, length l} with l > 0, none of whose requested chunks
is already in the rescheduled set and all of which are present in the payload
cache, the rescheduler enqueues for resend exactly the `l` cached payloads
with offsets `o` through `o + l - 1` inclusive (the source's chunk loop runs
`for i := 0; i < re.length; i++`), not the `l + 1` payloads through `o + l`,
and marks (f, o) as rescheduled. -/
theorem rescheduler_resends_length_chunks
    (cache : Nat → Nat → Option ServerPayload)
    (metadataCache : Nat → Option ServerMetaData)
    (scheduled : List (Nat × Nat)) (ack : ClientAck) (f o l : Nat)
    (hre : ack.resendEntries = [⟨f, o, l⟩])
    (hl : 0 < l)
    (hs : ∀ j ≤ l, (f, o + j) ∉ scheduled)
    (hc : ∀ j ≤ l, (cache f (o + j)).isSome = true) :
    (processAck cache metadataCache scheduled ack).1.resendQ =
      (List.range' o l).filterMap (cache f) ∧
    ((processAck cache metadataCache scheduled ack).1.resendQ).length = l ∧
    (processAck cache metadataCache scheduled ack).1.scheduled =
      scheduled ++ [(f, o)] := by
  have hso : (f, o) ∉ scheduled := by
    have := hs 0 (by omega)
    simpa using this
  have hc0 : (cache f o).isSome = true := by
    have := hc 0 (by omega)
    simpa using this
  obtain ⟨p, hp⟩ := Option.isSome_iff_exists.mp hc0
  have hlne : ¬ l = 0 := by omega
  have hsort : sortEntries [(⟨f, o, l⟩ : ResendEntry)] = [⟨f, o, l⟩] := rfl
  obtain ⟨hr1, hr2⟩ := resendChunks_all_cached cache f l o
    (fun j hj => hc j (by omega))
  have hout : (processAck cache metadataCache scheduled ack).1 =
      ⟨scheduled ++ [(f, o)], resendChunks cache f o l,
        if ack.metaDataMissing then [ack.fileIndex] else []⟩ := by
    simp [processAck, hre, hsort, processEntries, processEntry, hlne, hso, hp]
  rw [hout]
  exact ⟨hr1, hr2, rfl⟩

/-- C8 (counterexample): an ack whose single resend entry is
{fileIndex 0, offset 5, length 1}, with chunks 5 and 6 both cached and
nothing rescheduled yet, causes exactly one payload (offset 5) to be
enqueued — not the length+1 = 2 payloads at offsets 5 and 6 that the claim
demands. -/
theorem rescheduler_not_length_plus_one :
    (processAck
      (fun fi off => if fi = 0 ∧ (off = 5 ∨ off = 6) then some ⟨fi, 0, off, []⟩ else none)
      (fun _ => none) [] ⟨0, 0, false, 0, 0, [⟨0, 5, 1⟩]⟩).1.resendQ =
      [⟨0, 0, 5, []⟩] := by
  decide

/-- C8 (witness): the amended theorem applied to the same concrete cache and
ack as the counterexample. -/
theorem rescheduler_resends_length_chunks_witness :
    (processAck
      (fun fi off => if fi = 0 ∧ (off = 5 ∨ off = 6) then some ⟨fi, 0, off, []⟩ else none)
      (fun _ => none) [] ⟨0, 0, false, 0, 0, [⟨0, 5, 1⟩]⟩).1.resendQ =
      (List.range' 5 1).filterMap
        ((fun fi off => if fi = 0 ∧ (off = 5 ∨ off = 6) then some ⟨fi, 0, off, []⟩ else none) 0) ∧
    ((processAck
      (fun fi off => if fi = 0 ∧ (off = 5 ∨ off = 6) then some ⟨fi, 0, off, []⟩ else none)
      (fun _ => none) [] ⟨0, 0, false, 0, 0, [⟨0, 5, 1⟩]⟩).1.resendQ).length = 1 ∧
    (processAck
      (fun fi off => if fi = 0 ∧ (off = 5 ∨ off = 6) then some ⟨fi, 0, off, []⟩ else none)
      (fun _ => none) [] ⟨0, 0, false, 0, 0, [⟨0, 5, 1⟩]⟩).1.scheduled = [] ++ [(0, 5)] :=
  rescheduler_resends_length_chunks
    (fun fi off => if fi = 0 ∧ (off = 5 ∨ off = 6) then some ⟨fi, 0, off, []⟩ else none)
    (fun _ => none) [] ⟨0, 0, false, 0, 0, [⟨0, 5, 1⟩]⟩ 0 5 1 rfl (by decide)
    (by decide) (by decide)

/-! ### C2 -/

theorem sub64_eq_sub (a b : Nat) (hb : b ≤ a) (ha : a < 2 ^ 64) :
    sub64 a b = a - b := by
  unfold sub64
  omega

theorem add64_eq_add (a b : Nat) (h : a + b < 2 ^ 64) : add64 a b = a + b := by
  unfold add64
  omega

theorem gapsAux_nil (fi fuel first : Nat) : gapsAux fi fuel first [] = [] := by
  cases fuel <;> rfl

theorem covers_mk (fi off len k : Nat) :
    covers ⟨fi, off, len⟩ k ↔ off ≤ k ∧ k ≤ off + len := Iff.rfl

theorem DisjChain_cons_mk (lo fi off len : Nat) (es : List ResendEntry) :
    DisjChain lo (⟨fi, off, len⟩ :: es) ↔ lo ≤ off ∧ DisjChain (off + len + 1) es := Iff.rfl

theorem consume_suffix (l : List Nat) : ∀ first, (consume first l).2 <:+ l := by
  induction l with
  | nil => intro first; exact List.suffix_refl _
  | cons x xs ih =>
    intro first
    cases xs with
    | nil => exact List.suffix_refl _
    | cons y rest =>
      by_cases h : first < x
      · rw [consume, if_pos h]
      · rw [consume, if_neg h]
        exact (ih (add64 first 1)).trans (List.suffix_cons x (y :: rest))

theorem consume_ne_nil (l : List Nat) : ∀ first, l ≠ [] → (consume first l).2 ≠ [] := by
  induction l with
  | nil => intro first h; exact absurd rfl h
  | cons x xs ih =>
    intro first _
    cases xs with
    | nil => simp [consume]
    | cons y rest =>
      by_cases h : first < x
      · rw [consume, if_pos h]
        simp
      · rw [consume, if_neg h]
        exact ih (add64 first 1) (by simp)

theorem consume_spec (l : List Nat) :
    ∀ first, List.Sorted (· < ·) l → (∀ o ∈ l, first ≤ o ∧ o < 2 ^ 64) →
      first ≤ (consume first l).1 ∧
      (∀ o ∈ (consume first l).2, (consume first l).1 ≤ o) ∧
      (∀ k, first ≤ k → k < (consume first l).1 → k ∈ l) := by
  induction l with
  | nil =>
    intro first _ _
    refine ⟨Nat.le_refl _, by simp [consume], ?_⟩
    intro k h1 h2
    simp only [consume] at h2
    omega
  | cons x xs ih =>
    intro first hsort hb
    cases xs with
    | nil =>
      refine ⟨Nat.le_refl _, ?_, ?_⟩
      · intro o ho
        simp only [consume, List.mem_singleton] at ho
        subst ho
        exact (hb o (List.mem_cons_self _ _)).1
      · intro k h1 h2
        simp only [consume] at h2
        omega
    | cons y rest =>
      by_cases h : first < x
      · rw [consume, if_pos h]
        refine ⟨Nat.le_refl _, ?_, ?_⟩
        · intro o ho
          exact (hb o ho).1
        · intro k h1 h2
          omega
      · have hx : x = first := by
          have := (hb x (List.mem_cons_self _ _)).1
          omega
        have hy : x < y := (List.sorted_cons.mp hsort).1 y (List.mem_cons_self _ _)
        have hylt : y < 2 ^ 64 := (hb y (by simp)).2
        have hadd : add64 first 1 = first + 1 := add64_eq_add _ _ (by omega)
        have hb' : ∀ o ∈ y :: rest, add64 first 1 ≤ o ∧ o < 2 ^ 64 := by
          intro o ho
          obtain ⟨_, h2'⟩ := hb o (List.mem_cons_of_mem x ho)
          have hxo : x < o := (List.sorted_cons.mp hsort).1 o ho
          exact ⟨by omega, h2'⟩
        have hsort' : List.Sorted (· < ·) (y :: rest) := (List.sorted_cons.mp hsort).2
        obtain ⟨c5, c3, c4⟩ := ih (add64 first 1) hsort' hb'
        rw [hadd] at c5 c3 c4
        rw [consume, if_neg h, hadd]
        refine ⟨by omega, c3, ?_⟩
        intro k h1 h2
        by_cases hk : k = first
        · subst hk
          rw [hx]
          exact List.mem_cons_self _ _
        · exact List.mem_cons_of_mem x (c4 k (by omega) h2)

theorem DisjChain_mono (a b : Nat) (es : List ResendEntry) (h : a ≤ b)
    (hd : DisjChain b es) : DisjChain a es := by
  cases es with
  | nil => trivial
  | cons e es => exact ⟨Nat.le_trans h hd.1, hd.2⟩

theorem countCovering_cons (k : Nat) (e : ResendEntry) (es : List ResendEntry) :
    countCovering k (e :: es) = countCovering k es + (if covers e k then 1 else 0) := by
  simp [countCovering, List.countP_cons]

theorem countCovering_eq_zero (k : Nat) : ∀ (lo : Nat) (es : List ResendEntry),
    DisjChain lo es → k < lo → countCovering k es = 0 := by
  intro lo es
  induction es generalizing lo with
  | nil => intro _ _; rfl
  | cons e es ih =>
    intro hd hk
    obtain ⟨h1, h2⟩ := hd
    rw [countCovering_cons]
    have hnc : ¬ covers e k := by
      unfold covers
      omega
    rw [if_neg hnc, ih (e.offset + e.length + 1) h2 (by omega)]

theorem countCovering_le_one (k : Nat) : ∀ (lo : Nat) (es : List ResendEntry),
    DisjChain lo es → countCovering k es ≤ 1 := by
  intro lo es
  induction es generalizing lo with
  | nil => intro _; simp [countCovering]
  | cons e es ih =>
    intro hd
    obtain ⟨h1, h2⟩ := hd
    rw [countCovering_cons]
    by_cases hc : covers e k
    · rw [if_pos hc]
      have h0 : countCovering k es = 0 := by
        apply countCovering_eq_zero k (e.offset + e.length + 1) es h2
        unfold covers at hc
        omega
      omega
    · rw [if_neg hc]
      have := ih (e.offset + e.length + 1) h2
      omega

theorem countCovering_eq_zero_of_upper (k ymax : Nat) (es : List ResendEntry)
    (hub : ∀ e ∈ es, e.offset + e.length ≤ ymax) (hk : ymax < k) :
    countCovering k es = 0 := by
  unfold countCovering
  rw [List.countP_eq_zero]
  intro e he
  have hu := hub e he
  simp only [decide_eq_true_eq]
  intro hc
  obtain ⟨h1, h2⟩ := hc
  omega

theorem sorted_le_getLast (l : List Nat) :
    ∀ m, List.Sorted (· < ·) l → l.getLast? = some m → ∀ o ∈ l, o ≤ m := by
  induction l with
  | nil => intro m _ hl; simp at hl
  | cons x xs ih =>
    intro m hs hl o ho
    cases xs with
    | nil =>
      simp at hl ho
      omega
    | cons y rest =>
      rw [List.getLast?_cons_cons] at hl
      rcases List.mem_cons.mp ho with rfl | ho'
      · have hy : o < y := (List.sorted_cons.mp hs).1 y (by simp)
        have := ih m (List.sorted_cons.mp hs).2 hl y (by simp)
        omega
      · exact ih m (List.sorted_cons.mp hs).2 hl o ho'

theorem gapsAux_spec (fi : Nat) :
    ∀ (fuel first ymax : Nat) (ys : List Nat),
      List.Sorted (· < ·) ys →
      (∀ o ∈ ys, first ≤ o ∧ o < 2 ^ 64) →
      ys.getLast? = some ymax →
      ys.length + (ymax - first) < fuel →
      DisjChain first (gapsAux fi fuel first ys) ∧
      (∀ k, first ≤ k → k ≤ ymax → k ∉ ys →
        ∃ e ∈ gapsAux fi fuel first ys, covers e k) ∧
      (∀ e ∈ gapsAux fi fuel first ys, e.offset + e.length ≤ ymax) := by
  intro fuel
  induction fuel with
  | zero =>
    intro first ymax ys _ _ _ hf
    exact absurd hf (by omega)
  | succ fuel ih =>
    intro first ymax ys hsort hb hlast hf
    cases ys with
    | nil => simp at hlast
    | cons o rest =>
      obtain ⟨ho1, ho2⟩ := hb o (List.mem_cons_self _ _)
      have homax : o ≤ ymax :=
        sorted_le_getLast (o :: rest) ymax hsort hlast o (List.mem_cons_self _ _)
      have hsub : sub64 o first = o - first := sub64_eq_sub _ _ ho1 ho2
      by_cases hsplit : 255 < o - first
      · -- split emission: entry {first, 255}, same item list, first advances by 256
        have hunf : gapsAux fi (fuel + 1) first (o :: rest) =
            ⟨fi, first, 255⟩ :: gapsAux fi fuel (add64 first 256) (o :: rest) := by
          simp only [gapsAux]
          rw [hsub, if_pos hsplit]
        have hadd : add64 first 256 = first + 256 := add64_eq_add _ _ (by omega)
        rw [hunf, hadd]
        have hb' : ∀ x ∈ o :: rest, first + 256 ≤ x ∧ x < 2 ^ 64 := by
          intro x hx
          obtain ⟨hx1, hx2⟩ := hb x hx
          rcases List.mem_cons.mp hx with rfl | hx'
          · exact ⟨by omega, hx2⟩
          · have : o < x := (List.sorted_cons.mp hsort).1 x hx'
            exact ⟨by omega, hx2⟩
        obtain ⟨ihd, ihc, ihu⟩ := ih (first + 256) ymax (o :: rest) hsort hb' hlast (by
          simp only [List.length_cons] at hf ⊢
          omega)
        refine ⟨?_, ?_, ?_⟩
        · rw [DisjChain_cons_mk]
          refine ⟨Nat.le_refl _, ?_⟩
          have h256 : first + 255 + 1 = first + 256 := by omega
          rw [h256]
          exact ihd
        · intro k hk1 hk2 hk3
          by_cases hkle : k ≤ first + 255
          · exact ⟨⟨fi, first, 255⟩, List.mem_cons_self _ _, (covers_mk _ _ _ _).mpr (by omega)⟩
          · obtain ⟨e, he, hce⟩ := ihc k (by omega) hk2 hk3
            exact ⟨e, List.mem_cons_of_mem _ he, hce⟩
        · intro e he
          rcases List.mem_cons.mp he with rfl | he'
          · show first + 255 ≤ ymax
            omega
          · exact ihu e he'
      · -- non-split emission: entry {first, o - first} covering through o
        have hunf : gapsAux fi (fuel + 1) first (o :: rest) =
            ⟨fi, first, o - first⟩ ::
              gapsAux fi fuel (consume (add64 first (o - first + 1)) rest).1
                (consume (add64 first (o - first + 1)) rest).2 := by
          simp only [gapsAux]
          rw [hsub, if_neg hsplit]
        rw [hunf]
        cases rest with
        | nil =>
          have hyo : o = ymax := by simpa using hlast
          simp only [consume, gapsAux_nil]
          refine ⟨?_, ?_, ?_⟩
          · rw [DisjChain_cons_mk]
            exact ⟨Nat.le_refl _, trivial⟩
          · intro k hk1 hk2 hk3
            refine ⟨⟨fi, first, o - first⟩, List.mem_cons_self _ _,
              (covers_mk _ _ _ _).mpr (by omega)⟩
          · intro e he
            rcases List.mem_cons.mp he with rfl | he'
            · show first + (o - first) ≤ ymax
              omega
            · exact absurd he' (List.not_mem_nil e)
        | cons y rest' =>
          have hy : o < y := (List.sorted_cons.mp hsort).1 y (List.mem_cons_self _ _)
          have hylt : y < 2 ^ 64 := (hb y (by simp)).2
          have hadd : add64 first (o - first + 1) = o + 1 := by
            rw [add64_eq_add _ _ (by omega)]
            omega
          rw [hadd]
          have hsortr : List.Sorted (· < ·) (y :: rest') := (List.sorted_cons.mp hsort).2
          have hbr : ∀ x ∈ y :: rest', o + 1 ≤ x ∧ x < 2 ^ 64 := by
            intro x hx
            obtain ⟨_, hx2⟩ := hb x (List.mem_cons_of_mem _ hx)
            have : o < x := (List.sorted_cons.mp hsort).1 x hx
            exact ⟨by omega, hx2⟩
          obtain ⟨c5, c3, c4⟩ := consume_spec (y :: rest') (o + 1) hsortr hbr
          have hsuf : (consume (o + 1) (y :: rest')).2 <:+ y :: rest' :=
            consume_suffix _ _
          have hsne : (consume (o + 1) (y :: rest')).2 ≠ [] :=
            consume_ne_nil _ _ (by simp)
          have hsorts : List.Sorted (· < ·) (consume (o + 1) (y :: rest')).2 :=
            hsortr.sublist hsuf.sublist
          have hbs : ∀ x ∈ (consume (o + 1) (y :: rest')).2,
              (consume (o + 1) (y :: rest')).1 ≤ x ∧ x < 2 ^ 64 := by
            intro x hx
            exact ⟨c3 x hx, (hbr x (hsuf.sublist.subset hx)).2⟩
          have hlasts : (consume (o + 1) (y :: rest')).2.getLast? = some ymax := by
            rw [List.getLast?_cons_cons] at hlast
            obtain ⟨pre, hpre⟩ := hsuf
            rw [← hpre] at hlast
            rwa [List.getLast?_append_of_ne_nil _ hsne] at hlast
          have hfuels : (consume (o + 1) (y :: rest')).2.length +
              (ymax - (consume (o + 1) (y :: rest')).1) < fuel := by
            have hlen : (consume (o + 1) (y :: rest')).2.length ≤ (y :: rest').length :=
              List.IsSuffix.length_le (consume_suffix _ _)
            simp only [List.length_cons] at hf hlen ⊢
            omega
          obtain ⟨ihd, ihc, ihu⟩ := ih (consume (o + 1) (y :: rest')).1 ymax
            (consume (o + 1) (y :: rest')).2 hsorts hbs hlasts hfuels
          refine ⟨?_, ?_, ?_⟩
          · rw [DisjChain_cons_mk]
            refine ⟨Nat.le_refl _, ?_⟩
            exact DisjChain_mono _ _ _ (by omega) ihd
          · intro k hk1 hk2 hk3
            by_cases hko : k ≤ o
            · refine ⟨⟨fi, first, o - first⟩, List.mem_cons_self _ _,
                (covers_mk _ _ _ _).mpr (by omega)⟩
            · by_cases hkf : k < (consume (o + 1) (y :: rest')).1
              · have hkin : k ∈ y :: rest' := c4 k (by omega) hkf
                exact absurd (List.mem_cons_of_mem o hkin) hk3
              · obtain ⟨e, he, hce⟩ := ihc k (by omega) hk2
                  (fun hin => hk3 (List.mem_cons_of_mem o (hsuf.sublist.subset hin)))
                exact ⟨e, List.mem_cons_of_mem _ he, hce⟩
          · intro e he
            rcases List.mem_cons.mp he with rfl | he'
            · show first + (o - first) ≤ ymax
              omega
            · exact ihu e he'

theorem listMax_cons (x : Nat) (l : List Nat) : listMax (x :: l) = max x (listMax l) := rfl

theorem listMax_le (l : List Nat) : ∀ o ∈ l, o ≤ listMax l := by
  induction l with
  | nil => simp
  | cons x xs ih =>
    intro o ho
    rcases List.mem_cons.mp ho with rfl | ho'
    · rw [listMax_cons]
      omega
    · have := ih o ho'
      rw [listMax_cons]
      omega

theorem listMax_mem (l : List Nat) (h : l ≠ []) : listMax l ∈ l := by
  induction l with
  | nil => exact absurd rfl h
  | cons x xs ih =>
    cases xs with
    | nil =>
      simp [listMax_cons, listMax]
    | cons y rest =>
      rw [listMax_cons]
      rcases Nat.le_total x (listMax (y :: rest)) with hle | hle
      · have hmax : max x (listMax (y :: rest)) = listMax (y :: rest) := by omega
        rw [hmax]
        exact List.mem_cons_of_mem x (ih (by simp))
      · have hmax : max x (listMax (y :: rest)) = x := by omega
        rw [hmax]
        exact List.mem_cons_self _ _

/-- C2 (amended): for a queue holding the distinct received offsets S, all of
them at least `from` (and within `uint64` range), the runs returned by
`Gaps(from)` — each covering offsets `offset` through `offset + length` —
contain every offset of `[from, max S]` that is NOT in S exactly once,
contain no offset below `from` and none above `max S`, and contain every
offset at most once. The original claim's second half is false: a run may
also contain a received offset — the run emitted at each gap extends to the
received offset that bounds it, and a received offset equal to `from` or to
`max S` gets a length-0 run of its own — see the counterexample. -/
theorem Gaps_missing_covered_once (q : chunkQueue) (first k : Nat)
    (hnd : (offsetsOf q).Nodup)
    (hb : ∀ o ∈ offsetsOf q, first ≤ o ∧ o < 2 ^ 64)
    (hne : q.items ≠ []) :
    (first ≤ k → k ≤ listMax (offsetsOf q) → k ∉ offsetsOf q →
      countCovering k (q.Gaps first) = 1) ∧
    (k < first → countCovering k (q.Gaps first) = 0) ∧
    (listMax (offsetsOf q) < k → countCovering k (q.Gaps first) = 0) ∧
    countCovering k (q.Gaps first) ≤ 1 := by
  have hgaps : q.Gaps first =
      gapsAux q.fileIndex (2 ^ 64 * ((sortedOffsets q).length + 1)) first (sortedOffsets q) :=
    rfl
  have hperm : (sortedOffsets q).Perm (offsetsOf q) := List.perm_insertionSort _ _
  have hsle : List.Sorted (· ≤ ·) (sortedOffsets q) := List.sorted_insertionSort _ _
  have hndx : (sortedOffsets q).Nodup := hperm.symm.nodup hnd
  have hslt : List.Sorted (· < ·) (sortedOffsets q) := hsle.lt_of_le hndx
  have hxs : ∀ o ∈ sortedOffsets q, first ≤ o ∧ o < 2 ^ 64 :=
    fun o ho => hb o (hperm.mem_iff.mp ho)
  have hOne : offsetsOf q ≠ [] := by
    simp only [offsetsOf, ne_eq, List.map_eq_nil_iff]
    exact hne
  have hxne : sortedOffsets q ≠ [] := by
    intro hempty
    have hlen := hperm.length_eq
    rw [hempty] at hlen
    exact hOne (List.eq_nil_of_length_eq_zero hlen.symm)
  obtain ⟨m, hm⟩ := Option.isSome_iff_exists.mp (List.getLast?_isSome.mpr hxne)
  have hmmem : m ∈ offsetsOf q := hperm.mem_iff.mp (List.mem_of_mem_getLast? hm)
  have hmM : m = listMax (offsetsOf q) := by
    have h1 : m ≤ listMax (offsetsOf q) := listMax_le _ m hmmem
    have h2 : listMax (offsetsOf q) ≤ m := by
      apply sorted_le_getLast (sortedOffsets q) m hslt hm
      exact hperm.mem_iff.mpr (listMax_mem _ hOne)
    omega
  have hmlt : m < 2 ^ 64 := (hb m hmmem).2
  have hfuel : (sortedOffsets q).length + (m - first) <
      2 ^ 64 * ((sortedOffsets q).length + 1) := by
    omega
  obtain ⟨hdisj, hcov, hub⟩ := gapsAux_spec q.fileIndex
    (2 ^ 64 * ((sortedOffsets q).length + 1)) first m (sortedOffsets q) hslt hxs hm hfuel
  rw [hgaps]
  refine ⟨?_, ?_, ?_, ?_⟩
  · intro hk1 hk2 hk3
    obtain ⟨e, he, hce⟩ := hcov k hk1 (by omega)
      (fun hin => hk3 (hperm.mem_iff.mp hin))
    have hge1 : 0 < countCovering k
        (gapsAux q.fileIndex (2 ^ 64 * ((sortedOffsets q).length + 1)) first (sortedOffsets q)) :=
      List.countP_pos_iff.mpr ⟨e, he, decide_eq_true hce⟩
    have hle1 := countCovering_le_one k first _ hdisj
    omega
  · intro hk
    exact countCovering_eq_zero k first _ hdisj hk
  · intro hk
    exact countCovering_eq_zero_of_upper k m _ hub (by omega)
  · exact countCovering_le_one k first _ hdisj

/-- C2 (counterexample): for the queue holding the received offsets S = {0, 2}
and `from = 0`, `Gaps(0)` returns the runs {offset 0, length 0} and
{offset 1, length 1}: the second run covers the missing offset 1 but also
extends to the received offset 2 bounding the gap, and the first is a
length-0 run at the received offset 0 itself — both refuting the claim that
no run contains an offset of S. -/
theorem Gaps_run_contains_received :
    chunkQueue.Gaps ⟨[⟨0, 0, 0, []⟩, ⟨0, 0, 2, []⟩], 0, 0⟩ 0 =
      [⟨0, 0, 0⟩, ⟨0, 1, 1⟩] ∧
    (∃ e ∈ chunkQueue.Gaps ⟨[⟨0, 0, 0, []⟩, ⟨0, 0, 2, []⟩], 0, 0⟩ 0,
      covers e 2 ∧ 2 ∈ offsetsOf ⟨[⟨0, 0, 0, []⟩, ⟨0, 0, 2, []⟩], 0, 0⟩) ∧
    (∃ e ∈ chunkQueue.Gaps ⟨[⟨0, 0, 0, []⟩, ⟨0, 0, 2, []⟩], 0, 0⟩ 0,
      covers e 0 ∧ 0 ∈ offsetsOf ⟨[⟨0, 0, 0, []⟩, ⟨0, 0, 2, []⟩], 0, 0⟩) := by
  refine ⟨by decide, ?_, ?_⟩
  · exact ⟨⟨0, 1, 1⟩, by decide, by decide, by decide⟩
  · exact ⟨⟨0, 0, 0⟩, by decide, by decide, by decide⟩

/-- C2 (witness): for received offsets {2, 5} and `from = 0`: the missing
offset 3 is covered by exactly one run of `Gaps(0)`, the offset 7 above
`max S = 5` is covered by no run, and the received offset 2 is covered by at
most one run. -/
theorem Gaps_missing_covered_once_witness :
    countCovering 3 (chunkQueue.Gaps ⟨[⟨0, 0, 2, []⟩, ⟨0, 0, 5, []⟩], 0, 0⟩ 0) = 1 ∧
    countCovering 7 (chunkQueue.Gaps ⟨[⟨0, 0, 2, []⟩, ⟨0, 0, 5, []⟩], 0, 0⟩ 0) = 0 ∧
    countCovering 2 (chunkQueue.Gaps ⟨[⟨0, 0, 2, []⟩, ⟨0, 0, 5, []⟩], 0, 0⟩ 0) ≤ 1 :=
  ⟨(Gaps_missing_covered_once ⟨[⟨0, 0, 2, []⟩, ⟨0, 0, 5, []⟩], 0, 0⟩ 0 3
      (by decide) (by decide) (by decide)).1 (by decide) (by decide) (by decide),
   (Gaps_missing_covered_once ⟨[⟨0, 0, 2, []⟩, ⟨0, 0, 5, []⟩], 0, 0⟩ 0 7
      (by decide) (by decide) (by decide)).2.2.1 (by decide),
   (Gaps_missing_covered_once ⟨[⟨0, 0, 2, []⟩, ⟨0, 0, 5, []⟩], 0, 0⟩ 0 2
      (by decide) (by decide) (by decide)).2.2.2⟩

/-! ### C1: segment helpers -/

theorem u16be_length (x : Nat) : (u16be x).length = 2 := beBytes_length 2 x

theorem u32be_length (x : Nat) : (u32be x).length = 4 := beBytes_length 4 x

theorem u64be_length (x : Nat) : (u64be x).length = 8 := beBytes_length 8 x

theorem sevenByte_length (x : Nat) : ((u64be x).drop 1).length = 7 := by
  rw [u64be_drop_one]
  exact beBytes_length 7 x

theorem getD_drop_zero (l : List Nat) : ∀ (n d : Nat), l.getD n d = (l.drop n).getD 0 d := by
  induction l with
  | nil => intro n d; simp
  | cons x xs ih =>
    intro n d
    cases n with
    | zero => rfl
    | succ n => simp only [List.getD_cons_succ, List.drop_succ_cons]; exact ih n d

theorem uintOffset_of_wf (x : Nat) (h : x < 2 ^ 56) :
    uintOffset ((u64be x).drop 1) = x := by
  rw [uintOffset_sevenByte]
  exact Nat.mod_eq_of_lt h

/-! ### C1: body round trips -/

theorem closeConnection_roundtrip (c : closeConnection) (h : c.WF) :
    closeConnection.UnmarshalBinary (u16be c.reason) = .ok c := by
  unfold closeConnection.UnmarshalBinary
  rw [if_neg (by rw [u16be_length]; omega)]
  have ht : (u16be c.reason).take 2 = u16be c.reason :=
    List.take_of_length_le (by rw [u16be_length])
  rw [ht, readBE_u16be c.reason h]

theorem serverMetaData_roundtrip (s : serverMetaData) (h : s.WF) :
    serverMetaData.UnmarshalBinary
      ([0] ++ [s.status % 256] ++ u16be s.fileIndex ++ u64be s.size ++ s.checkSum) =
      .ok ⟨0, s.status, s.fileIndex, s.size, s.checkSum⟩ := by
  obtain ⟨ha, hst, hfi, hsz, hcs, hcb⟩ := h
  have hB : [0] ++ [s.status % 256] ++ u16be s.fileIndex ++ u64be s.size ++ s.checkSum =
      0 :: s.status % 256 :: (u16be s.fileIndex ++ (u64be s.size ++ s.checkSum)) := by
    simp
  rw [hB]
  set R := u16be s.fileIndex ++ (u64be s.size ++ s.checkSum) with hR
  have hRlen : R.length = 26 := by
    simp [hR, u16be_length, u64be_length, hcs]
  have hlen : (0 :: s.status % 256 :: R).length = 28 := by
    simp [hRlen]
  unfold serverMetaData.UnmarshalBinary
  rw [if_neg (by omega), if_neg (by omega), if_neg (by omega), if_neg (by omega)]
  have hst' : s.status < 256 := by omega
  have hstatus : (0 :: s.status % 256 :: R).getD 1 0 = s.status := by
    simp [Nat.mod_eq_of_lt hst']
  have hd2 : (0 :: s.status % 256 :: R).drop 2 = R := rfl
  have hfi' : ((0 :: s.status % 256 :: R).drop 2).take 2 = u16be s.fileIndex := by
    rw [hd2, hR]
    exact List.take_left' (u16be_length _)
  have hd4 : (0 :: s.status % 256 :: R).drop 4 = u64be s.size ++ s.checkSum := by
    rw [show (4 : Nat) = 2 + 2 from rfl, ← List.drop_drop, hd2, hR]
    exact List.drop_left' (u16be_length _)
  have hsz' : ((0 :: s.status % 256 :: R).drop 4).take 8 = u64be s.size := by
    rw [hd4]
    exact List.take_left' (u64be_length _)
  have hd12 : (0 :: s.status % 256 :: R).drop 12 = s.checkSum := by
    rw [show (12 : Nat) = 4 + 8 from rfl, ← List.drop_drop, hd4]
    exact List.drop_left' (u64be_length _)
  have hcs' : ((0 :: s.status % 256 :: R).drop 12).take 16 = s.checkSum := by
    rw [hd12]
    exact List.take_of_length_le (by omega)
  rw [hstatus, hfi', hsz', hcs', readBE_u16be _ hfi, readBE_u64be _ hsz]

theorem serverPayload_roundtrip (s : serverPayload) (h : s.WF) (bs : List Nat)
    (hbs : s.MarshalBinary = some bs) :
    serverPayload.UnmarshalBinary bs = .ok ⟨s.fileIndex, 0, s.offset, s.data⟩ := by
  obtain ⟨hfi, hack, hoff, hdb⟩ := h
  have hbs' : bs = u16be s.fileIndex ++ ((u64be s.offset).drop 1 ++ s.data) := by
    simp only [serverPayload.MarshalBinary, sevenByteOffset, Option.some.injEq] at hbs
    rw [← hbs, List.append_assoc]
  subst hbs'
  have hlen : (u16be s.fileIndex ++ ((u64be s.offset).drop 1 ++ s.data)).length =
      9 + s.data.length := by
    rw [List.length_append, List.length_append, u16be_length, sevenByte_length]
    omega
  unfold serverPayload.UnmarshalBinary
  rw [if_neg (by omega), if_neg (by omega)]
  have ht2 : (u16be s.fileIndex ++ ((u64be s.offset).drop 1 ++ s.data)).take 2 =
      u16be s.fileIndex := List.take_left' (u16be_length _)
  have hd2 : (u16be s.fileIndex ++ ((u64be s.offset).drop 1 ++ s.data)).drop 2 =
      (u64be s.offset).drop 1 ++ s.data := List.drop_left' (u16be_length _)
  have ht7 : ((u16be s.fileIndex ++ ((u64be s.offset).drop 1 ++ s.data)).drop 2).take 7 =
      (u64be s.offset).drop 1 := by
    rw [hd2]
    exact List.take_left' (sevenByte_length _)
  have hd9 : (u16be s.fileIndex ++ ((u64be s.offset).drop 1 ++ s.data)).drop 9 = s.data := by
    rw [show (9 : Nat) = 2 + 7 from rfl, ← List.drop_drop, hd2]
    exact List.drop_left' (sevenByte_length _)
  rw [ht2, ht7, readBE_u16be _ hfi, uintOffset_of_wf _ hoff]
  by_cases hcase : s.data = []
  · rw [if_neg (by rw [hlen, hcase]; simp), hcase]
  · have hne : s.data.length ≠ 0 := fun h0 => hcase (List.eq_nil_of_length_eq_zero h0)
    rw [if_pos (by rw [hlen]; omega), hd9]

theorem marshalFiles_some (fs : List fileDescriptor) (h : ∀ f ∈ fs, f.WF) :
    ∃ fb, marshalFiles fs = some fb := by
  induction fs with
  | nil => exact ⟨[], rfl⟩
  | cons f fs ih =>
    obtain ⟨fb, hfb⟩ := ih (fun g hg => h g (List.mem_cons_of_mem f hg))
    have hoff : ¬ maxFileOffset < f.offset := by
      have := (h f (List.mem_cons_self _ _)).1
      omega
    refine ⟨(u64be f.offset).drop 1 ++ u16be f.fileName.length ++ f.fileName ++ fb, ?_⟩
    simp only [marshalFiles, sevenByteOffset, hfb, if_neg hoff]

theorem unmarshalFiles_marshalFiles :
    ∀ (fs : List fileDescriptor) (bs : List Nat),
      (∀ f ∈ fs, f.WF) → marshalFiles fs = some bs →
      unmarshalFiles fs.length bs = .ok fs := by
  intro fs
  induction fs with
  | nil =>
    intro bs _ hbs
    simp only [marshalFiles, Option.some.injEq] at hbs
    subst hbs
    rfl
  | cons f fs ih =>
    intro bs hwf hbs
    obtain ⟨hoff, hnl, hnb⟩ := hwf f (List.mem_cons_self _ _)
    have hoff' : f.offset < 2 ^ 56 := by
      simp only [maxFileOffset] at hoff
      omega
    simp only [marshalFiles, sevenByteOffset] at hbs
    rw [if_neg (by omega : ¬ maxFileOffset < f.offset)] at hbs
    cases hrest : marshalFiles fs with
    | none => rw [hrest] at hbs; simp at hbs
    | some rest =>
      rw [hrest] at hbs
      simp only [Option.some.injEq] at hbs
      subst hbs
      have hassoc : (u64be f.offset).drop 1 ++ u16be f.fileName.length ++ f.fileName ++ rest =
          (u64be f.offset).drop 1 ++
            (u16be f.fileName.length ++ (f.fileName ++ rest)) := by
        simp [List.append_assoc]
      rw [hassoc]
      have hlen : ((u64be f.offset).drop 1 ++
          (u16be f.fileName.length ++ (f.fileName ++ rest))).length =
          9 + f.fileName.length + rest.length := by
        simp only [List.length_append, sevenByte_length, u16be_length]
        omega
      have ht7 : ((u64be f.offset).drop 1 ++
          (u16be f.fileName.length ++ (f.fileName ++ rest))).take 7 =
          (u64be f.offset).drop 1 := List.take_left' (sevenByte_length _)
      have hd7 : ((u64be f.offset).drop 1 ++
          (u16be f.fileName.length ++ (f.fileName ++ rest))).drop 7 =
          u16be f.fileName.length ++ (f.fileName ++ rest) :=
        List.drop_left' (sevenByte_length _)
      have ht2 : (((u64be f.offset).drop 1 ++
          (u16be f.fileName.length ++ (f.fileName ++ rest))).drop 7).take 2 =
          u16be f.fileName.length := by
        rw [hd7]
        exact List.take_left' (u16be_length _)
      have hd9 : ((u64be f.offset).drop 1 ++
          (u16be f.fileName.length ++ (f.fileName ++ rest))).drop 9 =
          f.fileName ++ rest := by
        rw [show (9 : Nat) = 7 + 2 from rfl, ← List.drop_drop, hd7]
        exact List.drop_left' (u16be_length _)
      simp only [List.length_cons, unmarshalFiles]
      rw [if_neg (by omega), if_neg (by omega), ht2, readBE_u16be _ hnl]
      rw [if_neg (by omega)]
      have hname : (((u64be f.offset).drop 1 ++
          (u16be f.fileName.length ++ (f.fileName ++ rest))).drop 9).take f.fileName.length =
          f.fileName := by
        rw [hd9]
        exact List.take_left' rfl
      have hrest9 : ((u64be f.offset).drop 1 ++
          (u16be f.fileName.length ++ (f.fileName ++ rest))).drop (9 + f.fileName.length) =
          rest := by
        rw [← List.drop_drop, hd9]
        exact List.drop_left' rfl
      rw [ht7, uintOffset_of_wf _ hoff', hname, hrest9,
        ih rest (fun g hg => hwf g (List.mem_cons_of_mem f hg)) hrest]

theorem clientRequest_roundtrip (s : clientRequest) (h : s.WF) (bs : List Nat)
    (hbs : s.MarshalBinary = some bs) :
    clientRequest.UnmarshalBinary bs = .ok s := by
  obtain ⟨hrate, hflen, hfwf⟩ := h
  simp only [clientRequest.MarshalBinary] at hbs
  cases hfb : marshalFiles s.files with
  | none => rw [hfb] at hbs; simp at hbs
  | some fb =>
    rw [hfb] at hbs
    simp only [Option.some.injEq] at hbs
    subst hbs
    have hassoc : u32be s.maxTransmissionRate ++ u16be s.files.length ++ fb =
        u32be s.maxTransmissionRate ++ (u16be s.files.length ++ fb) := by
      simp [List.append_assoc]
    rw [hassoc]
    have hlen : (u32be s.maxTransmissionRate ++ (u16be s.files.length ++ fb)).length =
        6 + fb.length := by
      simp only [List.length_append, u32be_length, u16be_length]
      omega
    unfold clientRequest.UnmarshalBinary
    rw [if_neg (by omega), if_neg (by omega)]
    have ht4 : (u32be s.maxTransmissionRate ++ (u16be s.files.length ++ fb)).take 4 =
        u32be s.maxTransmissionRate := List.take_left' (u32be_length _)
    have hd4 : (u32be s.maxTransmissionRate ++ (u16be s.files.length ++ fb)).drop 4 =
        u16be s.files.length ++ fb := List.drop_left' (u32be_length _)
    have ht2 : ((u32be s.maxTransmissionRate ++ (u16be s.files.length ++ fb)).drop 4).take 2 =
        u16be s.files.length := by
      rw [hd4]
      exact List.take_left' (u16be_length _)
    have hd6 : (u32be s.maxTransmissionRate ++ (u16be s.files.length ++ fb)).drop 6 = fb := by
      rw [show (6 : Nat) = 4 + 2 from rfl, ← List.drop_drop, hd4]
      exact List.drop_left' (u16be_length _)
    rw [ht4, readBE_u32be _ hrate, ht2, readBE_u16be _ hflen, hd6]
    by_cases hzero : s.files.length = 0
    · rw [if_pos hzero]
      have hfe : s.files = [] := List.eq_nil_of_length_eq_zero hzero
      rw [← hfe]
    · rw [if_neg hzero, unmarshalFiles_marshalFiles s.files fb hfwf hfb]

theorem marshalEntries_length :
    ∀ (res : List resendEntry) (bs : List Nat),
      marshalEntries res = some bs → bs.length = 10 * res.length := by
  intro res
  induction res with
  | nil =>
    intro bs hbs
    simp only [marshalEntries, Option.some.injEq] at hbs
    subst hbs
    rfl
  | cons re res ih =>
    intro bs hbs
    simp only [marshalEntries, sevenByteOffset] at hbs
    cases hrest : marshalEntries res with
    | none => rw [hrest] at hbs; simp at hbs
    | some rest =>
      rw [hrest] at hbs
      simp only [Option.some.injEq] at hbs
      subst hbs
      have := ih rest hrest
      simp only [List.length_append, u16be_length, sevenByte_length,
        List.length_cons, List.length_nil, List.length_singleton]
      omega

theorem unmarshalEntries_marshalEntries :
    ∀ (res : List resendEntry) (fuel i : Nat) (bs : List Nat),
      (∀ re ∈ res, re.WF) → marshalEntries res = some bs → res.length ≤ fuel →
      unmarshalEntries fuel i bs = res.take ((res.length - i + 1) / 2) := by
  intro res
  induction res with
  | nil =>
    intro fuel i bs _ hbs _
    simp only [marshalEntries, Option.some.injEq] at hbs
    subst hbs
    cases fuel with
    | zero => simp [unmarshalEntries]
    | succ f => simp [unmarshalEntries]
  | cons re res ih =>
    intro fuel i bs hwf hbs hfuel
    obtain ⟨hfi, hoff, hlen⟩ := hwf re (List.mem_cons_self _ _)
    simp only [marshalEntries, sevenByteOffset] at hbs
    cases hrest : marshalEntries res with
    | none => rw [hrest] at hbs; simp at hbs
    | some rest =>
      rw [hrest] at hbs
      simp only [Option.some.injEq] at hbs
      subst hbs
      have hrlen : rest.length = 10 * res.length := marshalEntries_length res rest hrest
      have hassoc : u16be re.fileIndex ++ (u64be re.offset).drop 1 ++ [re.length % 256] ++ rest =
          u16be re.fileIndex ++
            ((u64be re.offset).drop 1 ++ ([re.length % 256] ++ rest)) := by
        simp [List.append_assoc]
      rw [hassoc]
      have hblen : (u16be re.fileIndex ++
          ((u64be re.offset).drop 1 ++ ([re.length % 256] ++ rest))).length =
          10 + 10 * res.length := by
        simp only [List.length_append, u16be_length, sevenByte_length,
          List.length_singleton]
        omega
      cases fuel with
      | zero => simp only [List.length_cons] at hfuel; omega
      | succ f =>
        have hdiv : (u16be re.fileIndex ++
            ((u64be re.offset).drop 1 ++ ([re.length % 256] ++ rest))).length / 10 =
            res.length + 1 := by
          rw [hblen]
          omega
        have ht2 : (u16be re.fileIndex ++
            ((u64be re.offset).drop 1 ++ ([re.length % 256] ++ rest))).take 2 =
            u16be re.fileIndex := List.take_left' (u16be_length _)
        have hd2 : (u16be re.fileIndex ++
            ((u64be re.offset).drop 1 ++ ([re.length % 256] ++ rest))).drop 2 =
            (u64be re.offset).drop 1 ++ ([re.length % 256] ++ rest) :=
          List.drop_left' (u16be_length _)
        have ht7 : ((u16be re.fileIndex ++
            ((u64be re.offset).drop 1 ++ ([re.length % 256] ++ rest))).drop 2).take 7 =
            (u64be re.offset).drop 1 := by
          rw [hd2]
          exact List.take_left' (sevenByte_length _)
        have hd9 : (u16be re.fileIndex ++
            ((u64be re.offset).drop 1 ++ ([re.length % 256] ++ rest))).drop 9 =
            [re.length % 256] ++ rest := by
          rw [show (9 : Nat) = 2 + 7 from rfl, ← List.drop_drop, hd2]
          exact List.drop_left' (sevenByte_length _)
        have hgd9 : (u16be re.fileIndex ++
            ((u64be re.offset).drop 1 ++ ([re.length % 256] ++ rest))).getD 9 0 =
            re.length := by
          rw [getD_drop_zero, hd9]
          simp
          omega
        have hd10 : (u16be re.fileIndex ++
            ((u64be re.offset).drop 1 ++ ([re.length % 256] ++ rest))).drop 10 = rest := by
          rw [show (10 : Nat) = 9 + 1 from rfl, ← List.drop_drop, hd9]
          rfl
        rw [unmarshalEntries]
        by_cases hi : i < res.length + 1
        · rw [if_pos (by rw [hdiv]; omega)]
          rw [ht2, readBE_u16be _ hfi, ht7, uintOffset_of_wf _ hoff, hgd9, hd10]
          rw [ih f (i + 1) rest (fun g hg => hwf g (List.mem_cons_of_mem re hg)) hrest
            (by simp only [List.length_cons] at hfuel; omega)]
          have harith : ((re :: res).length - i + 1) / 2 =
              (res.length - (i + 1) + 1) / 2 + 1 := by
            simp only [List.length_cons]
            omega
          rw [harith, List.take_succ_cons]
        · rw [if_neg (by rw [hdiv]; omega)]
          have harith : ((re :: res).length - i + 1) / 2 = 0 := by
            simp only [List.length_cons]
            omega
          rw [harith, List.take_zero]

theorem clientAck_roundtrip (c : clientAck) (h : c.WF) (bs : List Nat)
    (hbs : c.MarshalBinary = some bs) :
    clientAck.UnmarshalBinary bs =
      .ok ⟨0, c.fileIndex, c.status, c.maxTransmissionRate, c.offset,
        c.resendEntries.take ((c.resendEntries.length + 1) / 2)⟩ := by
  obtain ⟨hack, hfi, hst, hrate, hoff, hewf⟩ := h
  simp only [clientAck.MarshalBinary, sevenByteOffset] at hbs
  cases hE : marshalEntries c.resendEntries with
  | none => rw [hE] at hbs; simp at hbs
  | some E =>
    rw [hE] at hbs
    simp only [Option.some.injEq] at hbs
    subst hbs
    have helen : E.length = 10 * c.resendEntries.length := marshalEntries_length _ E hE
    have hassoc : u16be c.fileIndex ++ [c.status % 256] ++ u32be c.maxTransmissionRate ++
        (u64be c.offset).drop 1 ++ E =
        u16be c.fileIndex ++ ([c.status % 256] ++ (u32be c.maxTransmissionRate ++
          ((u64be c.offset).drop 1 ++ E))) := by
      simp [List.append_assoc]
    rw [hassoc]
    have hblen : (u16be c.fileIndex ++ ([c.status % 256] ++ (u32be c.maxTransmissionRate ++
        ((u64be c.offset).drop 1 ++ E)))).length = 14 + 10 * c.resendEntries.length := by
      simp only [List.length_append, u16be_length, u32be_length, sevenByte_length,
        List.length_singleton]
      omega
    unfold clientAck.UnmarshalBinary
    rw [if_neg (by omega), if_neg (by omega), if_neg (by omega), if_neg (by omega)]
    have ht2 : (u16be c.fileIndex ++ ([c.status % 256] ++ (u32be c.maxTransmissionRate ++
        ((u64be c.offset).drop 1 ++ E)))).take 2 = u16be c.fileIndex :=
      List.take_left' (u16be_length _)
    have hd2 : (u16be c.fileIndex ++ ([c.status % 256] ++ (u32be c.maxTransmissionRate ++
        ((u64be c.offset).drop 1 ++ E)))).drop 2 =
        [c.status % 256] ++ (u32be c.maxTransmissionRate ++ ((u64be c.offset).drop 1 ++ E)) :=
      List.drop_left' (u16be_length _)
    have hst' : c.status < 256 := by omega
    have hgd2 : (u16be c.fileIndex ++ ([c.status % 256] ++ (u32be c.maxTransmissionRate ++
        ((u64be c.offset).drop 1 ++ E)))).getD 2 0 = c.status := by
      rw [getD_drop_zero, hd2]
      simp [Nat.mod_eq_of_lt hst']
    have hd3 : (u16be c.fileIndex ++ ([c.status % 256] ++ (u32be c.maxTransmissionRate ++
        ((u64be c.offset).drop 1 ++ E)))).drop 3 =
        u32be c.maxTransmissionRate ++ ((u64be c.offset).drop 1 ++ E) := by
      rw [show (3 : Nat) = 2 + 1 from rfl, ← List.drop_drop, hd2]
      rfl
    have ht4 : ((u16be c.fileIndex ++ ([c.status % 256] ++ (u32be c.maxTransmissionRate ++
        ((u64be c.offset).drop 1 ++ E)))).drop 3).take 4 = u32be c.maxTransmissionRate := by
      rw [hd3]
      exact List.take_left' (u32be_length _)
    have hd7 : (u16be c.fileIndex ++ ([c.status % 256] ++ (u32be c.maxTransmissionRate ++
        ((u64be c.offset).drop 1 ++ E)))).drop 7 = (u64be c.offset).drop 1 ++ E := by
      rw [show (7 : Nat) = 3 + 4 from rfl, ← List.drop_drop, hd3]
      exact List.drop_left' (u32be_length _)
    have ht7 : ((u16be c.fileIndex ++ ([c.status % 256] ++ (u32be c.maxTransmissionRate ++
        ((u64be c.offset).drop 1 ++ E)))).drop 7).take 7 = (u64be c.offset).drop 1 := by
      rw [hd7]
      exact List.take_left' (sevenByte_length _)
    have hd14 : (u16be c.fileIndex ++ ([c.status % 256] ++ (u32be c.maxTransmissionRate ++
        ((u64be c.offset).drop 1 ++ E)))).drop 14 = E := by
      rw [show (14 : Nat) = 7 + 7 from rfl, ← List.drop_drop, hd7]
      exact List.drop_left' (sevenByte_length _)
    rw [ht2, readBE_u16be _ hfi, hgd2, ht4, readBE_u32be _ hrate, ht7,
      uintOffset_of_wf _ hoff]
    by_cases hzero : c.resendEntries.length = 0
    · rw [if_neg (by omega)]
      have hre : c.resendEntries = [] := List.eq_nil_of_length_eq_zero hzero
      rw [hre]
      simp
    · rw [if_pos (by omega), hd14]
      simp only [unmarshalEntries_marshalEntries c.resendEntries (E.length + 1) 0 E hewf hE
        (by omega), Nat.sub_zero]

theorem msgHeader_unmarshal_cons (v a : Nat) (body : List Nat) :
    msgHeader.UnmarshalBinary (v :: a :: 0 :: body) =
      .ok ⟨(v &&& 0xF0) >>> 4, v &&& 0x0F, a, 0, [], 3⟩ := by
  unfold msgHeader.UnmarshalBinary
  rw [if_neg (by simp), if_neg (by simp)]
  simp [parseOptions]

/-- C1 (amended): framing a message with `sendTo` (header plus body) and
decoding it on the receive path yields the message back field for field,
except that a `serverMetaData` comes back with `ackNum = 0` (the field is
never written to the wire: the encoder emits a reserved zero byte in its
place and nothing restores it) and a `clientAck` keeps only the first
`⌈k/2⌉` of its `k` resend entries (the decoder's loop bound
`i < len(reBytes)/10` shrinks as the slice is re-sliced inside the loop).
`clientRequest`, `serverPayload` and `closeConnection` round-trip exactly,
as does a `clientAck` with at most one resend entry. Well-formed means every
field fits its machine type, offsets are within the 56-bit range, and name
lengths and file counts fit their 16-bit length fields. -/
theorem sendTo_decode_roundtrip (m : Msg) (h : m.WF) :
    ∃ bs, sendToBytes m = some bs ∧ decodePacket bs = .ok m.decoded := by
  cases m with
  | req r =>
    obtain ⟨hrate, hflen, hfwf⟩ := h
    obtain ⟨fb, hfb⟩ := marshalFiles_some r.files hfwf
    have hbody : r.MarshalBinary =
        some (u32be r.maxTransmissionRate ++ (u16be r.files.length ++ fb)) := by
      simp only [clientRequest.MarshalBinary, hfb, List.append_assoc]
    have hhm : msgHeader.MarshalBinary ⟨1, 0, 0, 0, [], 0⟩ = some [16, 0, 0] := by decide
    have hrt := clientRequest_roundtrip r ⟨hrate, hflen, hfwf⟩ _ hbody
    refine ⟨[16, 0, 0] ++ (u32be r.maxTransmissionRate ++ (u16be r.files.length ++ fb)), ?_, ?_⟩
    · simp only [sendToBytes, msgTypeOf, headerAckNum, marshalBody, hhm, hbody]
    · have hdec : msgHeader.UnmarshalBinary
          (16 :: 0 :: 0 :: (u32be r.maxTransmissionRate ++ (u16be r.files.length ++ fb))) =
          .ok ⟨1, 0, 0, 0, [], 3⟩ := by
        rw [msgHeader_unmarshal_cons]
        decide
      rw [show ([16, 0, 0] : List Nat) ++
          (u32be r.maxTransmissionRate ++ (u16be r.files.length ++ fb)) =
          16 :: 0 :: 0 :: (u32be r.maxTransmissionRate ++ (u16be r.files.length ++ fb)) from rfl]
      simp [decodePacket, hdec, DecodeOut.map, Msg.decoded, hrt]
  | meta s =>
    have hbody : s.MarshalBinary =
        some (0 :: s.status % 256 :: (u16be s.fileIndex ++ (u64be s.size ++ s.checkSum))) := by
      simp [serverMetaData.MarshalBinary]
    have hhm : msgHeader.MarshalBinary ⟨1, 1, 0, 0, [], 0⟩ = some [17, 0, 0] := by decide
    have hrt : serverMetaData.UnmarshalBinary
        (0 :: s.status % 256 :: (u16be s.fileIndex ++ (u64be s.size ++ s.checkSum))) =
        .ok ⟨0, s.status, s.fileIndex, s.size, s.checkSum⟩ := by
      have hthis := serverMetaData_roundtrip s h
      have harg : [0] ++ [s.status % 256] ++ u16be s.fileIndex ++ u64be s.size ++ s.checkSum =
          0 :: s.status % 256 :: (u16be s.fileIndex ++ (u64be s.size ++ s.checkSum)) := by
        simp
      rwa [harg] at hthis
    refine ⟨[17, 0, 0] ++
      (0 :: s.status % 256 :: (u16be s.fileIndex ++ (u64be s.size ++ s.checkSum))), ?_, ?_⟩
    · simp only [sendToBytes, msgTypeOf, headerAckNum, marshalBody, hhm, hbody]
    · have hdec : msgHeader.UnmarshalBinary
          (17 :: 0 :: 0 :: (0 :: s.status % 256 ::
            (u16be s.fileIndex ++ (u64be s.size ++ s.checkSum)))) =
          .ok ⟨1, 1, 0, 0, [], 3⟩ := by
        rw [msgHeader_unmarshal_cons]
        decide
      rw [show ([17, 0, 0] : List Nat) ++
          (0 :: s.status % 256 :: (u16be s.fileIndex ++ (u64be s.size ++ s.checkSum))) =
          17 :: 0 :: 0 :: (0 :: s.status % 256 ::
            (u16be s.fileIndex ++ (u64be s.size ++ s.checkSum))) from rfl]
      simp [decodePacket, hdec, DecodeOut.map, Msg.decoded, hrt]
  | payload p =>
    have hack : p.ackNumber < 2 ^ 8 := h.2.1
    have hbody : p.MarshalBinary =
        some (u16be p.fileIndex ++ ((u64be p.offset).drop 1 ++ p.data)) := by
      simp only [serverPayload.MarshalBinary, sevenByteOffset, List.append_assoc]
    have hhm : msgHeader.MarshalBinary ⟨1, 2, p.ackNumber, 0, [], 0⟩ =
        some [18, p.ackNumber % 256, 0] := by
      rw [show (18 : Nat) = Nat.xor ((1 <<< 4) % 256) (2 % 256) from by decide]
      rfl
    have hrt := serverPayload_roundtrip p h _ hbody
    refine ⟨[18, p.ackNumber % 256, 0] ++
      (u16be p.fileIndex ++ ((u64be p.offset).drop 1 ++ p.data)), ?_, ?_⟩
    · simp only [sendToBytes, msgTypeOf, headerAckNum, marshalBody, hhm, hbody]
    · have hdec : msgHeader.UnmarshalBinary
          (18 :: p.ackNumber % 256 :: 0 ::
            (u16be p.fileIndex ++ ((u64be p.offset).drop 1 ++ p.data))) =
          .ok ⟨1, 2, p.ackNumber, 0, [], 3⟩ := by
        rw [msgHeader_unmarshal_cons,
          Nat.mod_eq_of_lt (show p.ackNumber < 256 by omega)]
        congr 1
      rw [show ([18, p.ackNumber % 256, 0] : List Nat) ++
          (u16be p.fileIndex ++ ((u64be p.offset).drop 1 ++ p.data)) =
          18 :: p.ackNumber % 256 :: 0 ::
            (u16be p.fileIndex ++ ((u64be p.offset).drop 1 ++ p.data)) from rfl]
      simp only [List.drop_one] at hdec hrt ⊢
      simp [decodePacket, hdec, DecodeOut.map, Msg.decoded, restorePayloadAck, hrt]
  | ack c =>
    have hack : c.ackNumber < 2 ^ 8 := h.1
    obtain ⟨E, hE⟩ := Option.isSome_iff_exists.mp (marshalEntries_isSome c.resendEntries)
    have hbody : c.MarshalBinary =
        some (u16be c.fileIndex ++ ([c.status % 256] ++ (u32be c.maxTransmissionRate ++
          ((u64be c.offset).drop 1 ++ E)))) := by
      simp only [clientAck.MarshalBinary, sevenByteOffset, hE, List.append_assoc]
    have hhm : msgHeader.MarshalBinary ⟨1, 3, c.ackNumber, 0, [], 0⟩ =
        some [19, c.ackNumber % 256, 0] := by
      rw [show (19 : Nat) = Nat.xor ((1 <<< 4) % 256) (3 % 256) from by decide]
      rfl
    have hrt := clientAck_roundtrip c h _ hbody
    refine ⟨[19, c.ackNumber % 256, 0] ++
      (u16be c.fileIndex ++ ([c.status % 256] ++ (u32be c.maxTransmissionRate ++
        ((u64be c.offset).drop 1 ++ E)))), ?_, ?_⟩
    · simp only [sendToBytes, msgTypeOf, headerAckNum, marshalBody, hhm, hbody]
    · have hdec : msgHeader.UnmarshalBinary
          (19 :: c.ackNumber % 256 :: 0 :: (u16be c.fileIndex ++ ([c.status % 256] ++
            (u32be c.maxTransmissionRate ++ ((u64be c.offset).drop 1 ++ E))))) =
          .ok ⟨1, 3, c.ackNumber, 0, [], 3⟩ := by
        rw [msgHeader_unmarshal_cons,
          Nat.mod_eq_of_lt (show c.ackNumber < 256 by omega)]
        congr 1
      rw [show ([19, c.ackNumber % 256, 0] : List Nat) ++
          (u16be c.fileIndex ++ ([c.status % 256] ++ (u32be c.maxTransmissionRate ++
            ((u64be c.offset).drop 1 ++ E)))) =
          19 :: c.ackNumber % 256 :: 0 :: (u16be c.fileIndex ++ ([c.status % 256] ++
            (u32be c.maxTransmissionRate ++ ((u64be c.offset).drop 1 ++ E)))) from rfl]
      simp only [List.drop_one, List.singleton_append] at hdec hrt ⊢
      simp [decodePacket, hdec, DecodeOut.map, Msg.decoded, hrt]
  | close c =>
    have hbody : c.MarshalBinary = some (u16be c.reason) := rfl
    have hhm : msgHeader.MarshalBinary ⟨1, 4, 0, 0, [], 0⟩ = some [20, 0, 0] := by decide
    have hrt := closeConnection_roundtrip c h
    refine ⟨[20, 0, 0] ++ u16be c.reason, ?_, ?_⟩
    · simp only [sendToBytes, msgTypeOf, headerAckNum, marshalBody, hhm, hbody]
    · have hdec : msgHeader.UnmarshalBinary (20 :: 0 :: 0 :: u16be c.reason) =
          .ok ⟨1, 4, 0, 0, [], 3⟩ := by
        rw [msgHeader_unmarshal_cons]
        decide
      rw [show ([20, 0, 0] : List Nat) ++ u16be c.reason =
          20 :: 0 :: 0 :: u16be c.reason from rfl]
      simp [decodePacket, hdec, DecodeOut.map, Msg.decoded, hrt]

/-- C1 (counterexample): a client ack carrying two resend entries does not
round-trip: the decoded message keeps only the first entry, so
`decode(encode(m)) ≠ m` even though every offset is within the 56-bit range. -/
theorem clientAck_resendEntries_lost :
    decodePacket ((sendToBytes (.ack ⟨0, 0, 0, 0, 0, [⟨0, 1, 0⟩, ⟨0, 2, 0⟩]⟩)).getD []) =
      .ok (.ack ⟨0, 0, 0, 0, 0, [⟨0, 1, 0⟩]⟩) ∧
    (Msg.ack ⟨0, 0, 0, 0, 0, [⟨0, 1, 0⟩]⟩) ≠ .ack ⟨0, 0, 0, 0, 0, [⟨0, 1, 0⟩, ⟨0, 2, 0⟩]⟩ := by
  decide

/-- C1 (witness): the round-trip theorem applied to a concrete well-formed
client ack with two resend entries; its decoded form keeps one entry. -/
theorem sendTo_decode_roundtrip_witness :
    ∃ bs, sendToBytes (.ack ⟨5, 1, 2, 3, 4, [⟨0, 1, 0⟩, ⟨0, 2, 0⟩]⟩) = some bs ∧
      decodePacket bs = .ok (Msg.decoded (.ack ⟨5, 1, 2, 3, 4, [⟨0, 1, 0⟩, ⟨0, 2, 0⟩]⟩)) :=
  sendTo_decode_roundtrip (.ack ⟨5, 1, 2, 3, 4, [⟨0, 1, 0⟩, ⟨0, 2, 0⟩]⟩) (by decide)
